import Mathlib

/-!
Verification of the schemarama structured-data validation core
(`lighthouse-core/lib/schemarama-sd-validation`): a shallow embedding of
the triple-store model, the strongly-connected-component decomposer, shape
materialization (`quadsToShapes` / `getShape`), the report simplifier
(`ValidationReport`), the hierarchical validator (`recursiveValidate` /
`validateSchemaOrg`) and the string helpers (`removeUrls`, `formatString`,
`uniqueBy`), together with proofs and refutations of the specified
properties.

Conventions of the embedding:
* JavaScript strings are Lean `String`s; `undefined`-or-string values are
  `Option String`.
* n3 terms are interned by their id string; a term is modelled by its
  constructor together with the payload the source reads (`.id`,
  `.value`).  Subjects are named or blank nodes (never literals), as in
  RDF and as produced by the n3 parsers feeding this code.
* Asynchronous calls are awaited strictly sequentially in the source, so
  they are modelled as ordinary function calls; thrown exceptions are
  modelled with `Except`.
-/

namespace SDV

/-- Error kinds thrown by the validation core: `errors.InvalidDataError`,
`errors.ShexValidationError`, and a generic runtime `TypeError` for the
places where the source would fault on `undefined`. -/
inductive VErr where
  | invalidData
  | shexValidation (msg : String)
  | typeError
deriving DecidableEq

/-- An RDF term as held by an n3 store: named node, blank node or literal.
Only the fields the source reads are kept (`id`, `value`, `termType`). -/
inductive Term where
  | named (iri : String)
  | blank (name : String)
  | lit (value : String)
deriving DecidableEq

/-- `term.termType === 'Literal'` check used throughout the source. -/
def Term.isLiteral : Term → Bool
  | .lit _ => true
  | _ => false

/-- n3's `term.id`: the interned id string (blank nodes carry a `_:`
marker, literals are carried in quoted form). -/
def Term.id : Term → String
  | .named iri => iri
  | .blank name => "_:" ++ name
  | .lit v => "\x22" ++ v ++ "\x22"

/-- n3's `term.value` (the iri, the blank label, or the literal text). -/
def Term.value : Term → String
  | .named iri => iri
  | .blank name => name
  | .lit v => v

/-- A subject position term: RDF subjects are named or blank nodes. -/
structure SNode where
  isBlank : Bool
  name : String
deriving DecidableEq

def SNode.toTerm (n : SNode) : Term :=
  if n.isBlank then .blank n.name else .named n.name

def SNode.id (n : SNode) : String := n.toTerm.id

/-- A triple (n3 quad with the default graph). -/
structure Triple where
  subject : SNode
  predicate : String
  object : Term
deriving DecidableEq

/-- An n3 store's quad list.  The n3 `Store` keeps quads as a set; the
embedding keeps the list in insertion order and `addQuad` skips
duplicates, matching n3's set semantics. -/
abbrev Store := List Triple

def addQuad (st : Store) (q : Triple) : Store :=
  if q ∈ st then st else st ++ [q]

def mkStore (l : List Triple) : Store := l.foldl addQuad []

/-- `store.getQuads(id, undefined, undefined)` with a string first
argument: n3 interns terms by id, so the match is by subject id. -/
def getQuadsS (store : Store) (s : String) : List Triple :=
  store.filter (fun t => t.subject.id = s)

/-- `store.getQuads(id, pred, undefined)` with a string subject. -/
def getQuadsSP (store : Store) (s p : String) : List Triple :=
  store.filter (fun t => t.subject.id = s && t.predicate = p)

/-- `store.getQuads(undefined, undefined, vertex)` with a string object
id (n3 interns terms by id, so the match is by object id). -/
def getQuadsO (store : Store) (o : String) : List Triple :=
  store.filter (fun t => t.object.id = o)

/-- `utils.namespace`: prepends the base to the property name. -/
def nsApply (base prop : String) : String := base ++ prop

def rdfNS (p : String) : String :=
  nsApply "http://www.w3.org/1999/02/22-rdf-syntax-ns#" p

def rdfsNS (p : String) : String :=
  nsApply "http://www.w3.org/2000/01/rdf-schema#" p

def schemaNS (p : String) : String := nsApply "http://schema.org/" p

def shexNS (p : String) : String := nsApply "http://schema.org/shex#" p

/-! ### `utils.removeUrls`

`removeUrls` repeatedly deletes every match of the JavaScript regular
expression `https?:\/\/[^\s]+[\/#]` (global) until the string has no
match left.  The regex engine is modelled exactly for this pattern:
leftmost scan, greedy `[^\s]+` with backtracking to the last `/` or `#`
of the non-space run, matches non-overlapping, replacement continues
after the match end.  `\s` is modelled by the ASCII whitespace
characters (the inputs here are URLs and iris, which contain none of the
non-ASCII space code points). -/

def jsSpace (c : Char) : Bool :=
  c = ' ' || c = '\t' || c = '\n' || c = '\x0d' || c = '\x0b' || c = '\x0c'

/-- Index of the last character satisfying `p`, if any. -/
def lastIdxP (p : Char → Bool) : List Char → Option Nat
  | [] => none
  | c :: rest =>
    match lastIdxP p rest with
    | some i => some (i + 1)
    | none => if p c then some 0 else none

/-- The `https?:\/\/` part of the url regex, anchored at the head. -/
def urlSchemeSplit (cs : List Char) : Option (Nat × List Char) :=
  match cs with
  | 'h' :: 't' :: 't' :: 'p' :: 's' :: ':' :: '/' :: '/' :: r => some (8, r)
  | 'h' :: 't' :: 't' :: 'p' :: ':' :: '/' :: '/' :: r => some (7, r)
  | _ => none

/-- Length of the match of `https?:\/\/[^\s]+[\/#]` anchored at the head
of `cs`, if it matches there. -/
def urlMatchLen (cs : List Char) : Option Nat :=
  match urlSchemeSplit cs with
  | none => none
  | some (k, r) =>
    match lastIdxP (fun c => c = '/' || c = '#') (r.takeWhile (fun c => !jsSpace c)) with
    | some j => if 1 ≤ j then some (k + j + 1) else none
    | none => none

theorem urlMatchLen_pos {cs : List Char} {n : Nat} (h : urlMatchLen cs = some n) :
    0 < n := by
  unfold urlMatchLen at h
  split at h
  · exact absurd h (by simp)
  · split at h
    · split at h
      · simp only [Option.some.injEq] at h
        omega
      · exact absurd h (by simp)
    · exact absurd h (by simp)

/-- One global replacement pass of the url regex with `''`; the boolean
records whether any match was found (the `text.match(urlRegexp)` test). -/
def urlReplaceGo (cs : List Char) : List Char × Bool :=
  match cs with
  | [] => ([], false)
  | c :: rest =>
    match h : urlMatchLen (c :: rest) with
    | some n =>
      let r := urlReplaceGo ((c :: rest).drop n)
      (r.1, true)
    | none =>
      let r := urlReplaceGo rest
      (c :: r.1, r.2)
termination_by cs.length
decreasing_by
  · have hp := urlMatchLen_pos h
    simp only [List.length_drop, List.length_cons]
    omega
  · simp only [List.length_cons]
    omega

theorem urlReplaceGo_cons (c : Char) (rest : List Char) :
    urlReplaceGo (c :: rest) =
      match urlMatchLen (c :: rest) with
      | some n => ((urlReplaceGo ((c :: rest).drop n)).1, true)
      | none => ((c :: (urlReplaceGo rest).1), (urlReplaceGo rest).2) := by
  rw [urlReplaceGo]
  split
  · rename_i n h
    rw [h]
  · rename_i h
    rw [h]

theorem urlReplaceGo_len_le (cs : List Char) :
    (urlReplaceGo cs).1.length ≤ cs.length := by
  induction cs using urlReplaceGo.induct with
  | case1 => simp [urlReplaceGo]
  | case2 c rest n h ih =>
    rw [urlReplaceGo_cons, h]
    have hd : ((c :: rest).drop n).length ≤ (c :: rest).length := by
      simp [List.length_drop]
    exact le_trans ih hd
  | case3 c rest h ih =>
    rw [urlReplaceGo_cons, h]
    simp only [List.length_cons]
    omega

theorem urlReplaceGo_shrink (cs : List Char) (h : (urlReplaceGo cs).2 = true) :
    (urlReplaceGo cs).1.length < cs.length := by
  induction cs using urlReplaceGo.induct with
  | case1 => simp [urlReplaceGo] at h
  | case2 c rest n hm ih =>
    rw [urlReplaceGo_cons, hm]
    have hp := urlMatchLen_pos hm
    have hle := urlReplaceGo_len_le ((c :: rest).drop n)
    have hd : ((c :: rest).drop n).length < (c :: rest).length := by
      simp only [List.length_drop, List.length_cons]
      omega
    exact lt_of_le_of_lt hle hd
  | case3 c rest hm ih =>
    rw [urlReplaceGo_cons, hm] at h ⊢
    simp only [List.length_cons]
    have := ih h
    omega

/-- `utils.removeUrls` on character lists: `while (text.match(urlRegexp))
text = text.replace(urlRegexp, '')`. -/
def removeUrlsL (cs : List Char) : List Char :=
  match h : urlReplaceGo cs with
  | (r, true) => removeUrlsL r
  | (_, false) => cs
termination_by cs.length
decreasing_by
  have hs := urlReplaceGo_shrink cs (by rw [h])
  rw [h] at hs
  exact hs

def removeUrls (s : String) : String := String.mk (removeUrlsL s.data)

theorem removeUrlsL_eq (cs : List Char) :
    removeUrlsL cs =
      if (urlReplaceGo cs).2 then removeUrlsL (urlReplaceGo cs).1 else cs := by
  rw [removeUrlsL]
  split
  · rename_i r h
    rw [h]
    simp
  · rename_i r h
    rw [h]
    simp

/-- After `removeUrls` the url regex no longer matches anywhere (the
`while` loop's exit condition). -/
theorem removeUrlsL_noMatch (cs : List Char) :
    (urlReplaceGo (removeUrlsL cs)).2 = false := by
  induction cs using removeUrlsL.induct with
  | case1 cs r h ih =>
    rw [removeUrlsL_eq, h]
    simpa using ih
  | case2 cs r h =>
    rw [removeUrlsL_eq, h]
    simp [h]

unseal removeUrlsL urlReplaceGo in
example : removeUrls "http://schema.org/name" = "name" := by decide

unseal removeUrlsL urlReplaceGo in
example : removeUrls "Thing" = "Thing" := by decide

/-! ### `utils.formatString`

`formatString(s, args)` is `s.replace(/{(.+)}/g, replacer)` where the
replacer substitutes `args[key] || ''` when `args` has an own property
`key` and yields the match unchanged otherwise.  The pattern is greedy
and `.` excludes line terminators, so one match spans from an opening
brace to the last closing brace of the following non-newline run. -/

def jsDotChar (c : Char) : Bool := c ≠ '\n' && c ≠ '\x0d'

/-- Argument objects for `formatString`: own properties with a string or
`undefined` value (a present-but-`undefined` field is `(k, none)`). -/
abbrev FmtArgs := List (String × Option String)

/-- `args.hasOwnProperty(val) ? args[val] || '' : match`. -/
def fmtReplacer (args : FmtArgs) (matched : List Char) (grp : List Char) :
    List Char :=
  match args.find? (fun p => p.1 = String.mk grp) with
  | some (_, v) => (v.getD "").data
  | none => matched

def fmtGo (args : FmtArgs) (cs : List Char) : List Char :=
  match cs with
  | [] => []
  | c :: rest =>
    if c = '{' then
      let run := rest.takeWhile jsDotChar
      match lastIdxP (fun ch => ch = '}') run with
      | some j =>
        if 1 ≤ j then
          fmtReplacer args ('{' :: (run.take j ++ ['}'])) (run.take j) ++
            fmtGo args (rest.drop (j + 1))
        else
          c :: fmtGo args rest
      | none => c :: fmtGo args rest
    else
      c :: fmtGo args rest
termination_by cs.length
decreasing_by
  all_goals simp only [List.length_drop, List.length_cons]
  all_goals omega

def formatString (s : String) (args : FmtArgs) : String :=
  String.mk (fmtGo args s.data)

unseal fmtGo in
example :
    formatString "Property {property} not found"
      [("property", some "http://schema.org/name")] =
    "Property http://schema.org/name not found" := by decide

unseal fmtGo in
example :
    formatString "Property {property} was {code}"
      [("property", some "p"), ("code", some "c")] =
    "Property {property} was {code}" := by decide

/-! ### `utils.uniqueBy` and the JavaScript object model

Failure records, once they leave the simplifier, are plain JavaScript
objects whose fields are set dynamically (`failure[key] = val`).  They
are modelled as insertion-ordered association lists from field names to
string-or-`undefined` values. -/

abbrev JsObj := List (String × Option String)

/-- Field read (`obj[k]`), flattening absent and `undefined` to `none`. -/
def JsObj.getF (o : JsObj) (k : String) : Option String :=
  match o.find? (fun p => p.1 = k) with
  | some (_, v) => v
  | none => none

/-- Whether the object has the own property `k` (even if `undefined`). -/
def JsObj.hasF (o : JsObj) (k : String) : Bool :=
  (o.find? (fun p => p.1 = k)).isSome

/-- Field write (`obj[k] = v`): updates in place or appends, keeping the
JavaScript property insertion order. -/
def JsObj.setF (o : JsObj) (k : String) (v : Option String) : JsObj :=
  if (o.find? (fun p => p.1 = k)).isSome then
    o.map (fun p => if p.1 = k then (k, v) else p)
  else
    o ++ [(k, v)]

/-- `'' + item[key]`: string concatenation coerces a missing or
`undefined` field to the text `"undefined"`. -/
def jsConcatField (o : JsObj) (k : String) : String :=
  match o.find? (fun p => p.1 = k) with
  | some (_, some v) => v
  | some (_, none) => "undefined"
  | none => "undefined"

/-- The dedup key of `uniqueBy`: the concatenation of the key fields. -/
def uniqueKey (keys : List String) (o : JsObj) : String :=
  keys.foldl (fun acc k => acc ++ jsConcatField o k) ""

/-- `seen[val] = true` on a plain object: assigning to `__proto__` does
not create an own property, so such a key is never recorded. -/
def seenInsert (s : List String) (v : String) : List String :=
  if v = "__proto__" then s else v :: s

/-- `utils.uniqueBy(items, keys)`: keeps the first item for each
concatenated key value, dropping later duplicates. -/
def uniqueBy (items : List JsObj) (keys : List String) : List JsObj :=
  (items.foldl
    (fun (st : List String × List JsObj) item =>
      let val := uniqueKey keys item
      if val ∈ st.1 then st
      else (seenInsert st.1 val, st.2 ++ [item]))
    ([], [])).2

example :
    uniqueBy [[("property", some "a")], [("property", some "b")],
      [("property", some "a")]] ["property"] =
    [[("property", some "a")], [("property", some "b")]] := by decide

/-! ### The report simplifier (`ValidationReport.simplify`)

The raw failure tree from the external shex.js validator.  Only the
fields the simplifier reads are modelled; optional object-valued fields
become nested `Option`s (`some none` = object present, field
`undefined`).  An absent `errors` field is modelled as the empty array
(the simplifier never recurses into `errors` in a branch where the claim
inputs would leave it absent). -/

inductive RawItem where
  | mk (type? : Option String) (property? : Option String) (node? : Option String)
      (shape? : Option String) (constraint? : Option (Option String))
      (tripleSubject? : Option (Option String)) (ctx? : Option (Option String))
      (code? : Option String) (unexpected? : Option (List (Option String)))
      (errors : List RawItem)

/-- JavaScript truthiness of a string-or-`undefined` value. -/
def jsFalsy (o : Option String) : Bool :=
  match o with
  | none => true
  | some s => s = ""

/-- `a || b` for string-or-`undefined` values. -/
def jsPick (a b : Option String) : Option String := if jsFalsy a then b else a

/-- `a || ''` for a string-or-`undefined` value. -/
def jsOrEmpty (a : Option String) : String := (jsPick a (some "")).getD ""

def rdfTypeIri : String := rdfNS "type"

/-- The simplifier's flat failure record (all six fields are always
assigned by `simplify`). -/
structure SimpFailure where
  type? : Option String
  property? : Option String
  message : String
  node : String
  shape? : Option String
  severity : String
deriving DecidableEq

/-- The `failure` object viewed as `formatString` arguments (the source
passes the failure object itself for TypeMismatch / MissingProperty). -/
def failureArgs (f : SimpFailure) : FmtArgs :=
  [("type", f.type?), ("property", f.property?), ("message", some f.message),
    ("node", some f.node), ("shape", f.shape?), ("severity", some f.severity)]

/-- `ValidationReport.simplify` on a report array, accumulating failures
in push order; `msgs` is the localized `failureTypes` template table.

The source's `case 'MissingProperty' || 'ExcessTripleViolation' ||
'NegatedProperty':` evaluates the `||`-chain to the single label
`'MissingProperty'`, so `ExcessTripleViolation` and `NegatedProperty`
reach the `default` arm and throw; the embedding reproduces that. -/
def simplifyList (msgs : String → String) :
    List RawItem → Option String → Option String → Except VErr (List SimpFailure)
  | [], _, _ => Except.ok []
  | RawItem.mk ty pr nd sh co ts cx cd ut errs :: rest, pN, pS =>
    let contribution : Except VErr (List SimpFailure) :=
      -- STEP 1: structural results and @type failures are dropped
      if jsFalsy ty = true ∨ ty = some "ShapeAndResults" ∨ ty = some "ShapeOrResults" ∨
          pr = some rdfTypeIri ∨ co = some (some rdfTypeIri) ∨
          ty = some "NodeConstraintViolation" ∨ ty = some "ShapeOrFailure" ∨
          ty = some "ShapeTest" then
        Except.ok []
      -- STEP 2: containers recurse into `errors` with inherited context
      else if ty = some "ShapeAndFailure" ∨ ty = some "Failure" ∨
          ty = some "SemActFailure" ∨ ty = some "FailureList" ∨
          ty = some "ExtendedResults" ∨ ty = some "ExtensionFailure" ∨
          jsFalsy ty = true then
        simplifyList msgs errs (jsPick nd pN) (jsPick sh pS)
      -- STEP 3: closed shape violations, one failure per unexpected triple
      else if ty = some "ClosedShapeViolation" then
        Except.ok (match ut with
          | some triples => triples.map (fun pred? =>
              { type? := ty, property? := pred?,
                message := formatString (msgs "ClosedShapeViolation")
                  [("property", some (jsOrEmpty pred?))],
                node := jsOrEmpty pN, shape? := pS, severity := "error" })
          | none => [])
      -- STEP 4: leaf failures
      else
        let failure : SimpFailure :=
          { type? := ty, property? := jsPick pr (co.bind id), message := "",
            node := jsOrEmpty (jsPick (ts.bind id) pN),
            shape? := some (jsOrEmpty pS), severity := "error" }
        match ty with
        | some "TypeMismatch" => do
          let kids ← simplifyList msgs errs none none
          Except.ok (kids ++
            [{ failure with
                message := formatString (msgs "TypeMismatch") (failureArgs failure) }])
        | some "MissingProperty" =>
          Except.ok [{ failure with
            message := formatString (msgs "MissingProperty") (failureArgs failure) }]
        | some "BooleanSemActFailure" =>
          if cx = none ∨ cx = some none ∨ cx = some (some "") then Except.ok []
          else
            Except.ok [{ failure with
              message := formatString (msgs "BooleanSemActFailure")
                [("property", failure.property?), ("code", cd)] }]
        | some t => Except.error (.shexValidation ("Unknown failure type " ++ t))
        | none => Except.error (.shexValidation "Unknown failure type undefined")
    do
    let a ← contribution
    let b ← simplifyList msgs rest pN pS
    Except.ok (a ++ b)

/-- Remove the first element satisfying `p`, if any. -/
def removeFirst (p : SimpFailure → Bool) : List SimpFailure → List SimpFailure
  | [] => []
  | f :: rest => if p f then rest else f :: removeFirst p rest

/-- `ValidationReport.removeMissingIfTypeMismatch`: for each TypeMismatch
failure, remove the first MissingProperty failure on the same property. -/
def removeMissingIfTypeMismatch (fs : List SimpFailure) : List SimpFailure :=
  (fs.filter (fun x => x.type? == some "TypeMismatch")).foldl
    (fun acc tm =>
      removeFirst
        (fun x => x.property? == tm.property? && x.type? == some "MissingProperty") acc)
    fs

set_option maxRecDepth 10000 in
unseal simplifyList fmtGo in
example :
    simplifyList (fun _ => "Property {property} not found")
      [RawItem.mk (some "MissingProperty") (some "http://schema.org/name")
        none none none none none none none []] (some "n0") (some "s0") =
    Except.ok [⟨some "MissingProperty", some "http://schema.org/name",
      "Property http://schema.org/name not found", "n0", some "s0", "error"⟩] := by
  rfl

/-! ### ShExJ shapes and annotation enrichment

Only the parts of a ShExJ shape that `getShapeCore` / `getAnnotations`
read are modelled.  A shape annotation is a `(predicate, object value)`
pair (the source accepts the predicate both as a term and as a plain
string; the interned string form is kept). -/

structure TripleConstr where
  predicate : String
  annots : Option (List (String × String))

/-- The `expression` of a concrete `Shape`: a lone triple constraint or
an `expressions` list. -/
inductive ShapeExprBody where
  | single (tc : TripleConstr)
  | eachOf (tcs : List TripleConstr)

/-- A ShExJ shape expression as traversed by `getShapeCore`: a concrete
`Shape` node (with optional `expression`), a composition node carrying
`shapeExprs`, or any other node. -/
inductive ShExpr where
  | shape (expression : Option ShapeExprBody)
  | composite (exprs : List ShExpr)
  | plain

mutual

/-- `getShapeCore`: the first concrete `Shape` reachable through
`shapeExprs`, depth first (the source maps `getShapeCore` over the
`shapeExprs`, drops the `undefined` results and takes the head; taking
the first defined result directly is the same computation). -/
def getShapeCore : ShExpr → Option (Option ShapeExprBody)
  | .shape e => some e
  | .composite l => getShapeCoreFirst l
  | .plain => none

def getShapeCoreFirst : List ShExpr → Option (Option ShapeExprBody)
  | [] => none
  | x :: rest =>
    match getShapeCore x with
    | some r => some r
    | none => getShapeCoreFirst rest

end

/-- An insertion-ordered string map with JavaScript `Map.set` update. -/
abbrev StrMap := List (String × String)

def StrMap.setM (m : StrMap) (k v : String) : StrMap :=
  if (m.find? (fun p => p.1 = k)).isSome then
    m.map (fun p => if p.1 = k then (k, v) else p)
  else
    m ++ [(k, v)]

def StrMap.getM (m : StrMap) (k : String) : Option String :=
  (m.find? (fun p => p.1 = k)).map (fun p => p.2)

/-- The parsed schema: shape ids paired with their shape expressions
(`schema.shapes`, each carrying its `id`). -/
abbrev Schema := List (String × ShExpr)

/-- The constructor's `this.shapes` map: id ↦ `getShapeCore(shape)`. -/
def shapesCoreMap (schema : Schema) : List (String × Option (Option ShapeExprBody)) :=
  schema.map (fun p => (p.1, getShapeCore p.2))

def rdfsLabelIri : String := rdfsNS "label"

/-- `ValidationReport.getAnnotations(shape, property)`. -/
def getShapeAnnotations (shapesMap : List (String × Option (Option ShapeExprBody)))
    (shape property : String) : StrMap :=
  match (shapesMap.find? (fun p => p.1 = shape)).map (fun p => p.2) with
  | none => []
  | some none => []
  | some (some none) => []
  | some (some (some body)) =>
    let propStructure : Option TripleConstr :=
      match body with
      | .eachOf tcs => (tcs.filter (fun x => x.predicate = property)).head?
      | .single tc => if tc.predicate = property then some tc else none
    match propStructure with
    | none => []
    | some tc =>
      match tc.annots with
      | none => []
      | some l => l.foldl (fun m p => m.setM p.1 p.2) []

/-- `key.includes(c)` (`String.contains` is extern-backed; membership in
the character list is the same function and computes). -/
def jsIncludesChar (s : String) (c : Char) : Bool := s.data.contains c

/-- `ValidationReport.addLocalizedAnnotations(failure, id)`: copies every
entry of the locale annotation object whose key has no `@`, overwriting
the failure's field. -/
def addLocalizedAnnotations (locAnns : String → Option (List (String × String)))
    (f : JsObj) (id : String) : JsObj :=
  match locAnns id with
  | none => f
  | some entries =>
    entries.foldl
      (fun acc p => if jsIncludesChar p.1 '@' then acc
        else acc.setF p.1 (some p.2)) f

/-- The static configuration of a `ValidationReport` /  `ShexValidator`:
localized failure-type templates, severity labels, locale annotation
objects, the `options.annotations` key ↦ iri table and the parsed shape
set. -/
structure VConfig where
  msgs : String → String
  sevMsgs : String → Option String
  locAnns : String → Option (List (String × String))
  annots : Option (List (String × String))
  schema : Schema

/-- `ValidationReport.toStructuredDataReport`. -/
def toStructuredDataReport (cfg : VConfig) (fs : List SimpFailure) : List JsObj :=
  fs.map (fun err =>
    let f0 : JsObj := [("property", err.property?), ("message", some err.message),
      ("shape", err.shape?), ("node", some err.node), ("severity", some "error")]
    let f1 :=
      if jsFalsy err.shape? = false ∧ jsFalsy err.property? = false ∧
          cfg.annots.isSome = true then
        let shapeAnns := getShapeAnnotations (shapesCoreMap cfg.schema)
          (err.shape?.getD "") (err.property?.getD "")
        let f' := (cfg.annots.getD []).foldl
          (fun (acc : JsObj) p =>
            let ann := jsPick (shapeAnns.getM p.2) (acc.getF p.1)
            if jsFalsy ann then acc else acc.setF p.1 ann) f0
        if (shapeAnns.getM rdfsLabelIri).isSome then
          addLocalizedAnnotations cfg.locAnns f' (jsOrEmpty (shapeAnns.getM rdfsLabelIri))
        else f'
      else f0
    f1.setF "severityLabel"
      (cfg.sevMsgs (match f1.getF "severity" with
        | some s => s
        | none => "undefined")))

/-- `ShexValidator.validate` with the external shex.js validator's raw
report given as input: builds the `ValidationReport` (simplify + the
remove-missing pass) and returns `toStructuredDataReport`. -/
def shexValidateReport (cfg : VConfig) (raw : List RawItem) :
    Except VErr (List JsObj) := do
  let fs ← simplifyList cfg.msgs raw none none
  Except.ok (toStructuredDataReport cfg (removeMissingIfTypeMismatch fs))

/-! ### Depth-first search

`forwardDfs` / `backwardDfs` of `utils.stronglyConnectedComponents` share
one recursion pattern: visit an unvisited vertex, mark it, recurse into
its unvisited neighbours in order.  `dfs` captures it, returning the
visitation forest; `forwardDfs`'s order array is the postorder of the
forest (vertices pushed after their subtree) and `backwardDfs`'s
component array is the preorder (vertices pushed on entry). -/

/-- Visitation forest in first-child/next-sibling form. -/
inductive Forest where
  | nil : Forest
  | node (v : String) (fc fs : Forest) : Forest
deriving DecidableEq

def Forest.pre : Forest → List String
  | .nil => []
  | .node v fc fs => v :: (fc.pre ++ fs.pre)

def Forest.post : Forest → List String
  | .nil => []
  | .node v fc fs => (fc.post ++ [v]) ++ fs.post

theorem Forest.post_perm_pre (f : Forest) : f.post.Perm f.pre := by
  induction f with
  | nil => simp [Forest.pre, Forest.post]
  | node v fc fs ihc ihs =>
    simp only [Forest.pre, Forest.post]
    refine ((List.perm_append_comm.append_right fs.post).trans
      (((List.Perm.refl [v]).append ihc).append ihs)).trans ?_
    simp

/-- Depth-first search over the vertices `vs` in order, skipping visited
ones; neighbours come from `adj` and are known to lie in the vertex
universe `N` (in the source the neighbour guards establish exactly this:
forward edges are filtered by `nodes.includes`, backward edges lead to
subjects). -/
def dfs (adj : String → List String) (N : Finset String)
    (hadj : ∀ v w, w ∈ adj v → w ∈ N) :
    (vs : List String) → (∀ v ∈ vs, v ∈ N) → (used : Finset String) →
      {u : Finset String // used ⊆ u} × Forest
  | [], _, used => (⟨used, subset_rfl⟩, .nil)
  | v :: rest, hvs, used =>
    if hv : v ∈ used then
      dfs adj N hadj rest (fun w hw => hvs w (List.mem_cons_of_mem v hw)) used
    else
      let rc := dfs adj N hadj (adj v) (fun w hw => hadj v w hw) (insert v used)
      let rs := dfs adj N hadj rest (fun w hw => hvs w (List.mem_cons_of_mem v hw))
        rc.1.val
      (⟨rs.1.val, ((Finset.subset_insert v used).trans rc.1.2).trans rs.1.2⟩,
        .node v rc.2 rs.2)
termination_by vs _ used => ((N \ used).card, vs.length)
decreasing_by
  · exact Prod.Lex.right _ (by simp only [List.length_cons]; omega)
  · refine Prod.Lex.left _ _ ?_
    have hvN : v ∈ N := hvs v (List.mem_cons_self v rest)
    have hsub : N \ insert v used ⊆ N \ used :=
      Finset.sdiff_subset_sdiff subset_rfl (Finset.subset_insert v used)
    refine Finset.card_lt_card ⟨hsub, fun hall => ?_⟩
    have hv1 : v ∈ N \ used := Finset.mem_sdiff.mpr ⟨hvN, hv⟩
    have hv2 := hall hv1
    rw [Finset.mem_sdiff] at hv2
    exact hv2.2 (Finset.mem_insert_self v used)
  · refine Prod.Lex.left _ _ ?_
    have hvN : v ∈ N := hvs v (List.mem_cons_self v rest)
    have h1 : N \ rc.1.val ⊆ N \ insert v used :=
      Finset.sdiff_subset_sdiff subset_rfl rc.1.2
    have hsub : N \ insert v used ⊆ N \ used :=
      Finset.sdiff_subset_sdiff subset_rfl (Finset.subset_insert v used)
    have h2 : (N \ insert v used).card < (N \ used).card := by
      refine Finset.card_lt_card ⟨hsub, fun hall => ?_⟩
      have hv1 : v ∈ N \ used := Finset.mem_sdiff.mpr ⟨hvN, hv⟩
      have hv2 := hall hv1
      rw [Finset.mem_sdiff] at hv2
      exact hv2.2 (Finset.mem_insert_self v used)
    exact lt_of_le_of_lt (Finset.card_le_card h1) h2

/-! ### `utils.stronglyConnectedComponents` -/

/-- `[...new Set(list)]`: dedup keeping the first occurrence. -/
def firstDedup (l : List String) : List String :=
  l.foldl (fun acc x => if x ∈ acc then acc else acc ++ [x]) []

/-- `const nodes = [...new Set(store.getSubjects().map(x => x.id))]`. -/
def sccNodes (store : Store) : List String :=
  firstDedup (store.map (fun t => t.subject.id))

/-- Forward neighbours: objects of the vertex's quads that are not
literals and are in `nodes` (the `forwardDfs` guard). -/
def fwdNbrs (store : Store) (nodes : List String) (v : String) : List String :=
  (getQuadsS store v).filterMap (fun q =>
    if q.object.isLiteral = false ∧ q.object.id ∈ nodes then some q.object.id
    else none)

/-- Backward neighbours: subjects of the quads pointing at the vertex
(the `backwardDfs` loop). -/
def bwdNbrs (store : Store) (v : String) : List String :=
  (getQuadsO store v).map (fun q => q.subject.id)

theorem mem_foldl_dedup {l : List String} {acc : List String} {x : String} :
    x ∈ l.foldl (fun acc x => if x ∈ acc then acc else acc ++ [x]) acc ↔
      x ∈ acc ∨ x ∈ l := by
  induction l generalizing acc with
  | nil => simp
  | cons y ys ih =>
    simp only [List.foldl_cons]
    by_cases hy : y ∈ acc
    · rw [if_pos hy, ih]
      constructor
      · rintro (h | h)
        · exact Or.inl h
        · exact Or.inr (List.mem_cons_of_mem y h)
      · rintro (h | h)
        · exact Or.inl h
        · rcases List.mem_cons.mp h with rfl | h
          · exact Or.inl hy
          · exact Or.inr h
    · rw [if_neg hy, ih]
      simp only [List.mem_append, List.mem_singleton, List.mem_cons]
      tauto

theorem mem_firstDedup {l : List String} {x : String} :
    x ∈ firstDedup l ↔ x ∈ l := by
  unfold firstDedup
  rw [mem_foldl_dedup]
  simp

theorem nodup_foldl_dedup (l : List String) (acc : List String) (ha : acc.Nodup) :
    (l.foldl (fun acc x => if x ∈ acc then acc else acc ++ [x]) acc).Nodup := by
  induction l generalizing acc with
  | nil => simpa
  | cons y ys ih =>
    simp only [List.foldl_cons]
    by_cases hy : y ∈ acc
    · rw [if_pos hy]
      exact ih acc ha
    · rw [if_neg hy]
      refine ih _ ?_
      simp [List.nodup_append, ha, hy]

theorem nodup_firstDedup (l : List String) : (firstDedup l).Nodup :=
  nodup_foldl_dedup l [] List.nodup_nil

theorem fwdNbrs_mem_nodes {store : Store} {nodes : List String} {v w : String}
    (h : w ∈ fwdNbrs store nodes v) : w ∈ nodes := by
  unfold fwdNbrs at h
  rw [List.mem_filterMap] at h
  obtain ⟨q, _, hq⟩ := h
  split at hq
  · rename_i hcond
    cases hq
    exact hcond.2
  · cases hq

theorem bwdNbrs_mem_nodes {store : Store} {v w : String}
    (h : w ∈ bwdNbrs store v) : w ∈ sccNodes store := by
  unfold bwdNbrs at h
  rw [List.mem_map] at h
  obtain ⟨q, hq, rfl⟩ := h
  have hqs : q ∈ store := List.mem_of_mem_filter hq
  exact mem_firstDedup.mpr (List.mem_map.mpr ⟨q, hqs, rfl⟩)

/-- Pass 1: forward depth-first traversal from each node in order; the
finishing-order array is the postorder of the visitation forest. -/
def sccOrder (store : Store) : List String :=
  (dfs (fwdNbrs store (sccNodes store)) (sccNodes store).toFinset
    (fun _ w hw => List.mem_toFinset.mpr (fwdNbrs_mem_nodes hw))
    (sccNodes store) (fun _ hv => List.mem_toFinset.mpr hv) ∅).2.post

/-- Pass 1 forest (for the correctness proofs). -/
def sccForest (store : Store) : Forest :=
  (dfs (fwdNbrs store (sccNodes store)) (sccNodes store).toFinset
    (fun _ w hw => List.mem_toFinset.mpr (fwdNbrs_mem_nodes hw))
    (sccNodes store) (fun _ hv => List.mem_toFinset.mpr hv) ∅).2

theorem dfs_pre_subset {adj N hadj} :
    ∀ (vs : List String) (hvs : ∀ v ∈ vs, v ∈ N) (used : Finset String),
      ∀ x ∈ (dfs adj N hadj vs hvs used).2.pre, x ∈ N := by
  intro vs hvs used
  induction vs, hvs, used using dfs.induct adj N hadj with
  | case1 x used h => rw [dfs]; simp [Forest.pre]
  | case2 v rest hvs used hv h ih =>
    rw [dfs]
    simp only [dif_pos hv]
    exact ih
  | case3 v rest hvs used hv rc h ihc ihs ihs2 =>
    rw [dfs]
    simp only [dif_neg hv]
    intro x hx
    simp only [Forest.pre, List.mem_cons, List.mem_append] at hx
    rcases hx with rfl | hx | hx
    · exact hvs x (List.mem_cons_self x rest)
    · exact ihc x hx
    · exact ihs2 x hx

theorem sccOrder_mem_nodes {store : Store} {x : String} (h : x ∈ sccOrder store) :
    x ∈ (sccNodes store).toFinset := by
  unfold sccOrder at h
  have hp := (Forest.post_perm_pre _).mem_iff.mp h
  exact dfs_pre_subset _ _ _ x hp

/-- Lookup in the components map (`Map.get`). -/
def componentsGet (comps : List (String × Nat)) (id : String) : Option Nat :=
  (comps.find? (fun p => p.1 = id)).map (fun p => p.2)

/-- One step of pass 2 of `stronglyConnectedComponents`: an
already-visited vertex is skipped; an unvisited one seeds a backward
depth-first traversal and its preorder becomes the next component's
entries. -/
def sccStep (store : Store) (st : Finset String × Nat × List (String × Nat))
    (vp : {x // x ∈ (sccOrder store).reverse}) :
    Finset String × Nat × List (String × Nat) :=
  if vp.val ∈ st.1 then st
  else
    let r := dfs (bwdNbrs store) (sccNodes store).toFinset
      (fun _ w hw => List.mem_toFinset.mpr (bwdNbrs_mem_nodes hw))
      [vp.val]
      (fun w hw => by
        have : w = vp.val := List.mem_singleton.mp hw
        subst this
        exact sccOrder_mem_nodes (List.mem_reverse.mp vp.property))
      st.1
    (r.1.val, st.2.1 + 1, st.2.2 ++ r.2.pre.map (fun x => (x, st.2.1)))

/-- Pass 2 of `stronglyConnectedComponents`: walk the finishing order
backwards (`order[nodes.length - 1 - i]`; pass 1 finishes every node, so
this is `order` reversed).  Entries are appended in
`component.forEach(...)` order; keys never repeat, so appending matches
`Map.set`. -/
def stronglyConnectedComponents (store : Store) : List (String × Nat) :=
  ((sccOrder store).reverse.attach.foldl (sccStep store) (∅, 0, [])).2.2

/-! ### Shape materialization (`getShape` / `quadsToShapes`) -/

/-- The id argument of `getShape`: `quadsToShapes` passes the root node's
id string, recursive calls pass the object term. -/
inductive GsId where
  | str (s : String)
  | term (t : Term)

/-- `parsed.push(id.id)`: a plain string has no `.id` property, so the
top-level call pushes `undefined`. -/
def GsId.pushVal : GsId → Option String
  | .str _ => none
  | .term t => some t.id

/-- `store.getQuads(id, undefined, undefined)` for either id form. -/
def getQuadsG (store : Store) : GsId → List Triple
  | .str s => getQuadsS store s
  | .term t => store.filter (fun tr => tr.subject.toTerm = t)

/-- All ids occurring in the store (used only as the termination
universe of the `getShape` recursion). -/
def storeIds (store : Store) : Finset String :=
  (store.map (fun t => t.subject.id)).toFinset ∪
    (store.map (fun t => t.object.id)).toFinset

/-- The set of ids recorded in the `parsed` array. -/
def parsedSet (parsed : List (Option String)) : Finset String :=
  (parsed.filterMap (fun x => x)).toFinset

theorem parsedSet_append (p l : List (Option String)) :
    parsedSet p ⊆ parsedSet (p ++ l) := by
  unfold parsedSet
  intro x hx
  rw [List.mem_toFinset] at hx ⊢
  rw [List.filterMap_append, List.mem_append]
  exact Or.inl hx

theorem parsedSet_append_some (p : List (Option String)) (x : String) :
    parsedSet (p ++ [some x]) = insert x (parsedSet p) := by
  unfold parsedSet
  rw [List.filterMap_append]
  simp [List.toFinset_append, Finset.union_comm, Finset.insert_eq]

theorem parsedSet_append_none (p : List (Option String)) :
    parsedSet (p ++ [none]) = parsedSet p := by
  unfold parsedSet
  rw [List.filterMap_append]
  simp

theorem getQuadsG_term_facts {store : Store} {t : Term}
    (h : getQuadsG store (.term t) ≠ []) :
    t.isLiteral = false ∧ t.id ∈ storeIds store := by
  unfold getQuadsG at h
  obtain ⟨tr, htr⟩ := List.exists_mem_of_ne_nil _ h
  have htr2 := htr
  rw [List.mem_filter] at htr2
  obtain ⟨hmem, heq⟩ := htr2
  have heq2 : tr.subject.toTerm = t := by simpa using heq
  constructor
  · rw [← heq2]
    unfold SNode.toTerm Term.isLiteral
    by_cases hb : tr.subject.isBlank = true
    · rw [if_pos hb]
    · rw [if_neg hb]
  · have : t.id = tr.subject.id := by rw [← heq2]; rfl
    rw [this]
    unfold storeIds
    rw [Finset.mem_union, List.mem_toFinset]
    exact Or.inl (List.mem_map.mpr ⟨tr, hmem, rfl⟩)

/-- The mutual recursion of `getShape` as one function: `.one` evaluates
`getShape(id, ...)` (returning a one-element list), `.many` runs the
loop body over the listed object terms, returning each object's nested
store (or `none` for a skipped / empty / undefined one) in order. -/
inductive GsCall where
  | one (id : GsId)
  | many (ts : List Term)

def gsIdAdj (store : Store) : GsId → Nat
  | .str _ => 1
  | .term t => if t.isLiteral = false ∧ t.id ∈ storeIds store then 1 else 0

def gsCallMeasure (store : Store) : GsCall → List (Option String) → Nat × Nat × Nat
  | .one id, parsed =>
    ((storeIds store \ parsedSet (parsed ++ [id.pushVal])).card, gsIdAdj store id, 0)
  | .many ts, parsed =>
    ((storeIds store \ parsedSet parsed).card, 0, ts.length)

/-- `getShape` (`utils.getShape`): recursively collects the triples of a
shape.  The `parsed` array is shared through the whole recursion (the
source mutates one array), so it is threaded through and returned.

`lk` models `shapes.get(quad.object)`: the `shapes` map of
`quadsToShapes` is keyed by node-id strings but queried with term
objects, so at the call site in `quadsToShapes` the lookup never hits
(JavaScript `Map` equality never equates a string key with an object). -/
def gsRun (store : Store) (lk : Term → Option Store) :
    (c : GsCall) → (parsed : List (Option String)) →
      {p : List (Option String) // parsedSet parsed ⊆ parsedSet p} × List (Option Store)
  | .one id, parsed =>
    let parsed1 := parsed ++ [id.pushVal]
    let quads := getQuadsG store id
    if hq : quads = [] then
      (⟨parsed1, parsedSet_append parsed [id.pushVal]⟩, [none])
    else
      let rc := gsRun store lk (.many (quads.map (fun q => q.object))) parsed1
      (⟨rc.1.val, (parsedSet_append parsed [id.pushVal]).trans rc.1.2⟩,
        [some (mkStore (quads ++ rc.2.foldl
          (fun acc os => match os with
            | some st => acc ++ st
            | none => acc) []))])
  | .many [], parsed => (⟨parsed, subset_rfl⟩, [])
  | .many (t :: rest), parsed =>
    if hskip : t.isLiteral = false ∧ (some t.id) ∈ parsed then
      let r := gsRun store lk (.many rest) parsed
      (r.1, none :: r.2)
    else
      match lk t with
      | some st =>
        let r := gsRun store lk (.many rest) parsed
        (r.1, some st :: r.2)
      | none =>
        let r1 := gsRun store lk (.one (.term t)) parsed
        let r2 := gsRun store lk (.many rest) r1.1.val
        (⟨r2.1.val, r1.1.2.trans r2.1.2⟩, r1.2.headD none :: r2.2)
termination_by c parsed => gsCallMeasure store c parsed
decreasing_by
  · -- `.one` with quads ≠ [] calls the loop on the objects
    rcases id with s | t
    · simp only [gsCallMeasure, gsIdAdj, GsId.pushVal]
      exact Prod.Lex.right _ (Prod.Lex.left _ _ (by omega))
    · have hf := getQuadsG_term_facts hq
      simp only [gsCallMeasure, gsIdAdj, GsId.pushVal]
      split
      · exact Prod.Lex.right _ (Prod.Lex.left _ _ (by omega))
      · rename_i hcon
        exact absurd hf hcon
  · -- skipped object: same parsed, shorter list
    simp only [gsCallMeasure]
    exact Prod.Lex.right _ (Prod.Lex.right _
      (by simp only [List.length_cons]; omega))
  · -- `shapes.get` hit: same parsed, shorter list
    simp only [gsCallMeasure]
    exact Prod.Lex.right _ (Prod.Lex.right _
      (by simp only [List.length_cons]; omega))
  · -- recursive `getShape` on an object term
    simp only [gsCallMeasure, gsIdAdj, GsId.pushVal]
    split
    · rename_i hc
      refine Prod.Lex.left _ _ ?_
      rw [parsedSet_append_some]
      have hnotin : t.id ∉ parsedSet parsed := by
        intro hmem
        apply hskip
        refine ⟨hc.1, ?_⟩
        unfold parsedSet at hmem
        rw [List.mem_toFinset, List.mem_filterMap] at hmem
        obtain ⟨o, ho, heq⟩ := hmem
        cases o with
        | none => cases heq
        | some s => cases heq; exact ho
      have hsub : storeIds store \ insert t.id (parsedSet parsed) ⊆
          storeIds store \ parsedSet parsed :=
        Finset.sdiff_subset_sdiff subset_rfl (Finset.subset_insert _ _)
      refine Finset.card_lt_card ⟨hsub, fun hall => ?_⟩
      have h1 : t.id ∈ storeIds store \ parsedSet parsed :=
        Finset.mem_sdiff.mpr ⟨hc.2, hnotin⟩
      have h2 := hall h1
      rw [Finset.mem_sdiff] at h2
      exact h2.2 (Finset.mem_insert_self _ _)
    · have hsub : parsedSet parsed ⊆ parsedSet (parsed ++ [some t.id]) :=
        parsedSet_append parsed [some t.id]
      have hle : (storeIds store \ parsedSet (parsed ++ [some t.id])).card ≤
          (storeIds store \ parsedSet parsed).card :=
        Finset.card_le_card (Finset.sdiff_subset_sdiff subset_rfl hsub)
      rcases Nat.eq_or_lt_of_le hle with heq | hlt
      · rw [heq]
        exact Prod.Lex.right _ (Prod.Lex.right _
          (by simp only [List.length_cons]; omega))
      · exact Prod.Lex.left _ _ hlt
  · -- continue the loop with the recursion's parsed array
    simp only [gsCallMeasure]
    have hle : (storeIds store \ parsedSet r1.1.val).card ≤
        (storeIds store \ parsedSet parsed).card := by
      refine Finset.card_le_card (Finset.sdiff_subset_sdiff subset_rfl ?_)
      exact r1.1.2
    rcases Nat.eq_or_lt_of_le hle with heq | hlt
    · rw [heq]
      exact Prod.Lex.right _ (Prod.Lex.right _
        (by simp only [List.length_cons]; omega))
    · exact Prod.Lex.left _ _ hlt

/-- `utils.getShape`. -/
def getShape (store : Store) (lk : Term → Option Store) (id : GsId)
    (parsed : List (Option String)) : Option Store :=
  (gsRun store lk (.one id) parsed).2.headD none

/-- `utils.quadsToShapes`: demote components pointed at from another
component, then materialize one shape per surviving component at its
first node in components-map order. -/
def quadsToShapes (store : Store) : List (String × Option Store) :=
  let components := stronglyConnectedComponents store
  let notRoot0 : List Nat := store.foldl
    (fun acc quad =>
      if quad.object.isLiteral = false ∧
          (componentsGet components quad.subject.id).isSome ∧
          (componentsGet components quad.object.id).isSome ∧
          componentsGet components quad.subject.id ≠
            componentsGet components quad.object.id then
        acc ++ [(componentsGet components quad.object.id).getD 0]
      else acc) []
  (components.foldl
    (fun (st : List Nat × List (String × Option Store)) p =>
      if p.2 ∈ st.1 then st
      else
        (st.1 ++ [p.2],
          st.2 ++ [(p.1, getShape store (fun _ => none) (.str p.1) [])]))
    (notRoot0, [])).2

set_option maxRecDepth 20000 in
unseal gsRun in
example :
    getShape [⟨⟨false, "A"⟩, "p", .named "B"⟩, ⟨⟨false, "B"⟩, "q", .named "A"⟩]
      (fun _ => none) (.str "A") [] =
    some [⟨⟨false, "A"⟩, "p", .named "B"⟩, ⟨⟨false, "B"⟩, "q", .named "A"⟩] := by
  rfl

set_option maxRecDepth 40000 in
unseal dfs gsRun in
example :
    quadsToShapes [⟨⟨false, "A"⟩, "p", .named "B"⟩, ⟨⟨false, "B"⟩, "q", .named "A"⟩] =
    [("A", some [⟨⟨false, "A"⟩, "p", .named "B"⟩, ⟨⟨false, "B"⟩, "q", .named "A"⟩])] := by
  rfl

unseal dfs in
example :
    stronglyConnectedComponents
      [⟨⟨false, "A"⟩, "p", .named "B"⟩, ⟨⟨false, "B"⟩, "q", .named "A"⟩] =
    [("A", 0), ("B", 0)] := by decide

/-! ### The hierarchical validator
(`recursiveValidate` / `validateSchemaOrg`)

The external pieces are parameters: `validateFn` is
`shexValidator.validate(...)` (specified by `shexValidateReport` when a
raw report is supplied), `parseFn` is `parsers.stringToQuads`. -/

inductive Hierarchy where
  | mk (service : String) (nested : List Hierarchy)

def Hierarchy.service : Hierarchy → String
  | .mk s _ => s

def Hierarchy.nested : Hierarchy → List Hierarchy
  | .mk _ ns => ns

mutual

/-- `recursiveValidate(hierarchyNode, shapeStore, id)`. -/
def recursiveValidate (validateFn : Store → String → String → Except VErr (List JsObj))
    (shapeIds : List String) (h : Hierarchy) (shapeStore : Store) (id : String) :
    Except VErr (List JsObj) :=
  match h with
  | .mk service children =>
    match getQuadsSP shapeStore id rdfTypeIri with
    | [] => Except.error .invalidData
    | tq :: _ => do
      let type := removeUrls tq.object.value
      let startShape := shexNS ("Valid" ++ service ++ removeUrls type)
      let failures ←
        if startShape ∈ shapeIds then validateFn shapeStore startShape id
        else Except.ok []
      let failures := failures.map (fun f =>
        (f.setF "service" (some service)).setF "node" (some (removeUrls type)))
      let props := failures.map (fun f => f.getF "property")
      let nested ← recursiveValidateNested validateFn shapeIds children shapeStore id props
      Except.ok (failures ++ nested)

/-- The loop over `hierarchyNode.nested`, filtering out failures whose
property already failed at the parent. -/
def recursiveValidateNested
    (validateFn : Store → String → String → Except VErr (List JsObj))
    (shapeIds : List String) (hs : List Hierarchy) (shapeStore : Store) (id : String)
    (props : List (Option String)) : Except VErr (List JsObj) :=
  match hs with
  | [] => Except.ok []
  | c :: rest => do
    let nf ← recursiveValidate validateFn shapeIds c shapeStore id
    let nf := nf.filter (fun x => !(props.contains (x.getF "property")))
    let more ← recursiveValidateNested validateFn shapeIds rest shapeStore id props
    Except.ok (nf ++ more)

end

/-- The entity loop inside `validateSchemaOrg`'s `try` block.  The JS
`report.push(...failures)` happens per entity before any later throw, so
the result carries both the failures pushed so far and the exception (if
one is raised before the loop finishes).  An entity whose shape is
`undefined` makes `recursiveValidate` call `shapeStore.getQuads` on
`undefined`, a `TypeError`. -/
def processEntities (validateFn : Store → String → String → Except VErr (List JsObj))
    (shapeIds : List String) (hierarchy : Hierarchy) :
    List (String × Option Store) → List JsObj × Option VErr
  | [] => ([], none)
  | p :: rest =>
    match p.2 with
    | none => ([], some .typeError)
    | some shape =>
      match recursiveValidate validateFn shapeIds hierarchy shape p.1 with
      | .error e => ([], some e)
      | .ok fs =>
        let failures := uniqueBy fs ["property", "shape", "severity"]
        let r := processEntities validateFn shapeIds hierarchy rest
        (failures ++ r.1, r.2)

/-- The body of `validateSchemaOrg`'s `try` block for one data item:
failures pushed to the report so far, plus the exception if one was
thrown. -/
def processItem (parseFn : String → Except VErr Store)
    (validateFn : Store → String → String → Except VErr (List JsObj))
    (shapeIds : List String) (hierarchy : Hierarchy) (item : String) :
    List JsObj × Option VErr :=
  match parseFn item with
  | .error e => ([], some e)
  | .ok store => processEntities validateFn shapeIds hierarchy (quadsToShapes store)

/-- `validateSchemaOrg(data, url)`: processes each item, recovering from
`InvalidDataError` only (failures already pushed before the caught throw
stay in the report). -/
def validateSchemaOrg (parseFn : String → Except VErr Store)
    (validateFn : Store → String → String → Except VErr (List JsObj))
    (shapeIds : List String) (hierarchy : Hierarchy) :
    List String → Except VErr (List JsObj)
  | [] => Except.ok []
  | item :: rest =>
    match processItem parseFn validateFn shapeIds hierarchy item with
    | (fs, none) =>
      (validateSchemaOrg parseFn validateFn shapeIds hierarchy rest).map
        (fun more => fs ++ more)
    | (fs, some .invalidData) =>
      (validateSchemaOrg parseFn validateFn shapeIds hierarchy rest).map
        (fun more => fs ++ more)
    | (_, some e) => Except.error e

/-! ## Claim prerequisites: `formatString` computation lemmas -/

theorem String.mk_data_self (s : String) : String.mk s.data = s := by
  cases s
  rfl

theorem fmtGo_nil (args : FmtArgs) : fmtGo args [] = [] := by
  rw [fmtGo]

theorem fmtGo_cons_not_open {c : Char} (args : FmtArgs) (rest : List Char)
    (h : c ≠ '{') : fmtGo args (c :: rest) = c :: fmtGo args rest := by
  rw [fmtGo]
  rw [if_neg h]

theorem fmtGo_cons_open (args : FmtArgs) (rest : List Char) :
    fmtGo args ('{' :: rest) =
      match lastIdxP (fun ch => ch = '}') (rest.takeWhile jsDotChar) with
      | some j =>
        if 1 ≤ j then
          fmtReplacer args ('{' :: ((rest.takeWhile jsDotChar).take j ++ ['}']))
            ((rest.takeWhile jsDotChar).take j) ++ fmtGo args (rest.drop (j + 1))
        else '{' :: fmtGo args rest
      | none => '{' :: fmtGo args rest := by
  rw [fmtGo]
  rw [if_pos rfl]

theorem lastIdxP_none {p : Char → Bool} {l : List Char}
    (h : ∀ c ∈ l, p c = false) : lastIdxP p l = none := by
  induction l with
  | nil => rfl
  | cons c rest ih =>
    unfold lastIdxP
    rw [ih (fun x hx => h x (List.mem_cons_of_mem c hx))]
    simp [h c (List.mem_cons_self c rest)]

theorem lastIdxP_concat {p : Char → Bool} {y : Char} {zs : List Char}
    (xs : List Char) (hy : p y = true) (hzs : ∀ c ∈ zs, p c = false) :
    lastIdxP p (xs ++ y :: zs) = some xs.length := by
  induction xs with
  | nil =>
    rw [List.nil_append]
    unfold lastIdxP
    rw [lastIdxP_none hzs, hy]
    rfl
  | cons x xs ih =>
    rw [List.cons_append]
    unfold lastIdxP
    rw [ih]
    simp

theorem mem_of_mem_takeWhile {q : Char → Bool} {l : List Char} {x : Char}
    (h : x ∈ l.takeWhile q) : x ∈ l := by
  induction l with
  | nil => simp at h
  | cons c rest ih =>
    by_cases hc : q c = true
    · rw [List.takeWhile_cons_of_pos hc] at h
      rcases List.mem_cons.mp h with rfl | h2
      · exact List.mem_cons_self _ _
      · exact List.mem_cons_of_mem _ (ih h2)
    · rw [List.takeWhile_cons_of_neg hc] at h
      simp at h

theorem takeWhile_append_all {q : Char → Bool} {xs : List Char} (ys : List Char)
    (h : ∀ c ∈ xs, q c = true) :
    (xs ++ ys).takeWhile q = xs ++ ys.takeWhile q := by
  induction xs with
  | nil => simp
  | cons x xs ih =>
    rw [List.cons_append]
    rw [List.takeWhile_cons_of_pos (h x (List.mem_cons_self x xs))]
    rw [ih (fun c hc => h c (List.mem_cons_of_mem x hc))]
    simp

theorem fmtGo_no_close (args : FmtArgs) (cs : List Char)
    (h : ∀ c ∈ cs, c ≠ '}') : fmtGo args cs = cs := by
  induction cs with
  | nil => exact fmtGo_nil args
  | cons c rest ih =>
    by_cases hc : c = '{'
    · subst hc
      rw [fmtGo_cons_open]
      have hnone : lastIdxP (fun ch => ch = '}') (rest.takeWhile jsDotChar) = none := by
        refine lastIdxP_none (fun x hx => ?_)
        have hxr : x ∈ rest := mem_of_mem_takeWhile hx
        have := h x (List.mem_cons_of_mem _ hxr)
        simp [this]
      simp only [hnone]
      rw [ih (fun x hx => h x (List.mem_cons_of_mem _ hx))]
    · rw [fmtGo_cons_not_open args rest hc]
      rw [ih (fun x hx => h x (List.mem_cons_of_mem _ hx))]

theorem fmtGo_append_no_open (args : FmtArgs) (pre tail : List Char)
    (h : ∀ c ∈ pre, c ≠ '{') :
    fmtGo args (pre ++ tail) = pre ++ fmtGo args tail := by
  induction pre with
  | nil => simp
  | cons c rest ih =>
    rw [List.cons_append]
    rw [fmtGo_cons_not_open args _ (h c (List.mem_cons_self c rest))]
    rw [ih (fun x hx => h x (List.mem_cons_of_mem _ hx))]
    simp

theorem fmtGo_span (args : FmtArgs) (body post : List Char)
    (hbody : ∀ c ∈ body, jsDotChar c = true)
    (hbody1 : body ≠ [])
    (hpost : ∀ c ∈ post, c ≠ '}') :
    fmtGo args ('{' :: (body ++ '}' :: post)) =
      fmtReplacer args ('{' :: (body ++ ['}'])) body ++ post := by
  rw [fmtGo_cons_open]
  have hrun : (body ++ '}' :: post).takeWhile jsDotChar =
      body ++ '}' :: post.takeWhile jsDotChar := by
    rw [takeWhile_append_all _ hbody]
    rw [List.takeWhile_cons]
    have hh : jsDotChar '}' = true := by decide
    simp [hh]
  have hlast : lastIdxP (fun ch => ch = '}')
      ((body ++ '}' :: post).takeWhile jsDotChar) = some body.length := by
    rw [hrun]
    refine lastIdxP_concat body (by simp) (fun c hc => ?_)
    have hcp : c ∈ post := mem_of_mem_takeWhile hc
    simp [hpost c hcp]
  simp only [hlast]
  have h1 : 1 ≤ body.length := by
    cases body with
    | nil => exact absurd rfl hbody1
    | cons _ _ => simp
  rw [if_pos h1]
  have htake : ((body ++ '}' :: post).takeWhile jsDotChar).take body.length = body := by
    rw [hrun]
    exact List.take_left body _
  have hdrop : (body ++ '}' :: post).drop (body.length + 1) = post := by
    have : body ++ '}' :: post = (body ++ ['}']) ++ post := by simp
    rw [this]
    have hlen : (body ++ ['}']).length = body.length + 1 := by simp
    rw [← hlen]
    exact List.drop_left _ _
  rw [htake, hdrop]
  rw [fmtGo_no_close args post hpost]

theorem strOfData {a : String} {l : List Char} (h : a.data = l) :
    a = String.mk l := by
  cases a
  cases h
  rfl

/-- **C10** — `formatString` substitutes a single `\x7bfield\x7d` placeholder
correctly, but the greedy `\x7b(.+)\x7d` pattern matches from an opening brace
to the LAST closing brace of the following non-newline run as one
placeholder key.  For a template `pre\x7bbody\x7dpost` (no `\x7b` in `pre`, no
newline in `body`, no `\x7d` in `post`), the whole of `body` — which may
itself span several intended placeholders — is the one key looked up: if
`args` lacks that key nothing is substituted, and if `body` is a genuine
single field present in `args` the substitution is correct. -/
theorem claim_C10 (args : FmtArgs) (pre body post : String)
    (hpre : ∀ c ∈ pre.data, c ≠ '\x7b')
    (hbody : ∀ c ∈ body.data, jsDotChar c = true)
    (hbody1 : body.data ≠ [])
    (hpost : ∀ c ∈ post.data, c ≠ '\x7d') :
    formatString (pre ++ "\x7b" ++ body ++ "\x7d" ++ post) args =
      pre ++ String.mk (fmtReplacer args ('\x7b' :: (body.data ++ ['\x7d'])) body.data)
        ++ post
    ∧ (args.find? (fun p => p.1 = body) = none →
        formatString (pre ++ "\x7b" ++ body ++ "\x7d" ++ post) args =
          pre ++ "\x7b" ++ body ++ "\x7d" ++ post)
    ∧ (∀ pr, args.find? (fun p => p.1 = body) = some pr →
        formatString (pre ++ "\x7b" ++ body ++ "\x7d" ++ post) args =
          pre ++ (pr.2.getD "") ++ post) := by
  have hdata : (pre ++ "\x7b" ++ body ++ "\x7d" ++ post).data =
      pre.data ++ ('\x7b' :: (body.data ++ '\x7d' :: post.data)) := by
    simp [String.data_append]
  have hmain : formatString (pre ++ "\x7b" ++ body ++ "\x7d" ++ post) args =
      pre ++ String.mk (fmtReplacer args ('\x7b' :: (body.data ++ ['\x7d'])) body.data)
        ++ post := by
    unfold formatString
    rw [hdata]
    rw [fmtGo_append_no_open args pre.data _ hpre]
    rw [fmtGo_span args body.data post.data hbody hbody1 hpost]
    have hd2 : (pre ++
        String.mk (fmtReplacer args ('\x7b' :: (body.data ++ ['\x7d'])) body.data)
        ++ post).data =
        pre.data ++ (fmtReplacer args ('\x7b' :: (body.data ++ ['\x7d'])) body.data
          ++ post.data) := by
      simp [String.data_append]
    exact (strOfData hd2).symm
  refine ⟨hmain, fun hfind => ?_, fun pr hfind => ?_⟩
  · rw [hmain]
    unfold fmtReplacer
    rw [String.mk_data_self]
    rw [hfind]
    have hd3 : (pre ++ "\x7b" ++ body ++ "\x7d" ++ post).data =
        pre.data ++ (('\x7b' :: (body.data ++ ['\x7d'])) ++ post.data) := by
      simp [String.data_append]
    have hd4 : (pre ++ String.mk ('\x7b' :: (body.data ++ ['\x7d'])) ++ post).data =
        pre.data ++ (('\x7b' :: (body.data ++ ['\x7d'])) ++ post.data) := by
      simp [String.data_append]
    rw [strOfData hd4, strOfData hd3]
  · rw [hmain]
    unfold fmtReplacer
    rw [String.mk_data_self]
    rw [hfind]

/-- Witness for C10: the two-field template `Property \x7bproperty\x7d was
\x7bcode\x7d` with both fields present in the arguments is returned unchanged
(the one greedy key is `property\x7d was \x7bcode`, not an argument field),
while the single-placeholder template `Property \x7bproperty\x7d!` does
substitute. -/
theorem claim_C10_witness :
    formatString "Property \x7bproperty\x7d was \x7bcode\x7d"
        [("property", some "p"), ("code", some "c")] =
      "Property \x7bproperty\x7d was \x7bcode\x7d" ∧
    formatString "Property \x7bproperty\x7d!"
        [("property", some "p"), ("code", some "c")] =
      "Property p!" := by
  constructor
  · have h := (claim_C10 [("property", some "p"), ("code", some "c")]
      "Property " "property\x7d was \x7bcode" ""
      (by decide) (by decide) (by decide) (by decide)).2.1 (by decide)
    have he : ("Property " ++ "\x7b" ++ "property\x7d was \x7bcode" ++ "\x7d" ++ ""
        : String) = "Property \x7bproperty\x7d was \x7bcode\x7d" := by decide
    rw [he] at h
    exact h
  · have h := (claim_C10 [("property", some "p"), ("code", some "c")]
      "Property " "property" "!"
      (by decide) (by decide) (by decide) (by decide)).2.2
      ("property", some "p") (by decide)
    have he : ("Property " ++ "\x7b" ++ "property" ++ "\x7d" ++ "!" : String) =
        "Property \x7bproperty\x7d!" := by decide
    have he2 : ("Property " ++ (Option.getD (some "p") "") ++ "!" : String) =
        "Property p!" := by decide
    rw [he, he2] at h
    exact h

set_option maxRecDepth 10000 in
unseal simplifyList fmtGo in
/-- **C1** — behaviour of `simplify` on each claimed leaf violation type:
`TypeMismatch`, `MissingProperty` and `BooleanSemActFailure` (with a
predicate context) each emit exactly one failure, but
`ExcessTripleViolation` and `NegatedProperty` fall through to the
`default` arm and raise the unknown-type error, because the source label
`case 'MissingProperty' || 'ExcessTripleViolation' || 'NegatedProperty':`
evaluates to the single string `'MissingProperty'`. -/
theorem claim_C1_switch_behavior :
    (simplifyList (fun _ => "msg")
        [RawItem.mk (some "MissingProperty") (some "p") none none none none none
          none none []] (some "n0") (some "s0") =
      Except.ok [⟨some "MissingProperty", some "p", "msg", "n0", some "s0", "error"⟩]) ∧
    (simplifyList (fun _ => "msg")
        [RawItem.mk (some "TypeMismatch") (some "p") none none none none none
          none none []] (some "n0") (some "s0") =
      Except.ok [⟨some "TypeMismatch", some "p", "msg", "n0", some "s0", "error"⟩]) ∧
    (simplifyList (fun _ => "msg")
        [RawItem.mk (some "BooleanSemActFailure") (some "p") none none none none
          (some (some "act")) (some "code1") none []] (some "n0") (some "s0") =
      Except.ok [⟨some "BooleanSemActFailure", some "p", "msg", "n0", some "s0",
        "error"⟩]) ∧
    (simplifyList (fun _ => "msg")
        [RawItem.mk (some "ExcessTripleViolation") (some "p") none none none none
          none none none []] (some "n0") (some "s0") =
      Except.error (.shexValidation "Unknown failure type ExcessTripleViolation")) ∧
    (simplifyList (fun _ => "msg")
        [RawItem.mk (some "NegatedProperty") (some "p") none none none none none
          none none []] (some "n0") (some "s0") =
      Except.error (.shexValidation "Unknown failure type NegatedProperty")) := by
  refine ⟨?_, ?_, ?_, ?_, ?_⟩ <;> rfl

/-! ## C9: error handling of the batch driver -/

theorem vso_cons_none (p : String → Except VErr Store)
    (v : Store → String → String → Except VErr (List JsObj))
    (s : List String) (h : Hierarchy) (x : String) (rest : List String)
    (fs : List JsObj) (hx : processItem p v s h x = (fs, none)) :
    validateSchemaOrg p v s h (x :: rest) =
      (validateSchemaOrg p v s h rest).map (fun more => fs ++ more) := by
  simp only [validateSchemaOrg, hx]

theorem vso_cons_invalid (p : String → Except VErr Store)
    (v : Store → String → String → Except VErr (List JsObj))
    (s : List String) (h : Hierarchy) (x : String) (rest : List String)
    (fs : List JsObj) (hx : processItem p v s h x = (fs, some .invalidData)) :
    validateSchemaOrg p v s h (x :: rest) =
      (validateSchemaOrg p v s h rest).map (fun more => fs ++ more) := by
  simp only [validateSchemaOrg, hx]

theorem vso_cons_throw (p : String → Except VErr Store)
    (v : Store → String → String → Except VErr (List JsObj))
    (s : List String) (h : Hierarchy) (x : String) (rest : List String)
    (fs : List JsObj) (e : VErr) (hx : processItem p v s h x = (fs, some e))
    (hne : e ≠ .invalidData) :
    validateSchemaOrg p v s h (x :: rest) = Except.error e := by
  cases e with
  | invalidData => exact absurd rfl hne
  | shexValidation m => simp only [validateSchemaOrg, hx]
  | typeError => simp only [validateSchemaOrg, hx]

theorem rv_no_type (v : Store → String → String → Except VErr (List JsObj))
    (s : List String) (h : Hierarchy) (st : Store) (id : String)
    (hq : getQuadsSP st id rdfTypeIri = []) :
    recursiveValidate v s h st id = Except.error .invalidData := by
  cases h with
  | mk service children => simp only [recursiveValidate, hq]

theorem vso_skip (p : String → Except VErr Store)
    (v : Store → String → String → Except VErr (List JsObj))
    (s : List String) (h : Hierarchy) (bad : String) (xs ys : List String)
    (hbad : processItem p v s h bad = ([], some .invalidData)) :
    validateSchemaOrg p v s h (xs ++ bad :: ys) =
      validateSchemaOrg p v s h (xs ++ ys) := by
  induction xs with
  | nil =>
    rw [List.nil_append, List.nil_append,
      vso_cons_invalid p v s h bad ys [] hbad]
    cases hy : validateSchemaOrg p v s h ys <;> simp [Except.map]
  | cons a as ih =>
    rw [List.cons_append, List.cons_append]
    rcases hx : processItem p v s h a with ⟨fs, o⟩
    cases o with
    | none =>
      rw [vso_cons_none p v s h a (as ++ bad :: ys) fs hx,
        vso_cons_none p v s h a (as ++ ys) fs hx, ih]
    | some e =>
      cases e with
      | invalidData =>
        rw [vso_cons_invalid p v s h a (as ++ bad :: ys) fs hx,
          vso_cons_invalid p v s h a (as ++ ys) fs hx, ih]
      | shexValidation m =>
        rw [vso_cons_throw p v s h a (as ++ bad :: ys) fs _ hx
            (by intro hc; exact VErr.noConfusion hc),
          vso_cons_throw p v s h a (as ++ ys) fs _ hx
            (by intro hc; exact VErr.noConfusion hc)]
      | typeError =>
        rw [vso_cons_throw p v s h a (as ++ bad :: ys) fs _ hx
            (by intro hc; exact VErr.noConfusion hc),
          vso_cons_throw p v s h a (as ++ ys) fs _ hx
            (by intro hc; exact VErr.noConfusion hc)]

theorem vso_throw (p : String → Except VErr Store)
    (v : Store → String → String → Except VErr (List JsObj))
    (s : List String) (h : Hierarchy) (bad : String) (e : VErr)
    (xs ys : List String)
    (hbade : (processItem p v s h bad).2 = some e) (hne : e ≠ .invalidData)
    (hxs : ∀ x ∈ xs, (processItem p v s h x).2 = none) :
    validateSchemaOrg p v s h (xs ++ bad :: ys) = Except.error e := by
  induction xs with
  | nil =>
    rw [List.nil_append]
    have hb2 : processItem p v s h bad =
        ((processItem p v s h bad).1, some e) := by
      rw [← hbade]
    exact vso_cons_throw p v s h bad ys _ e hb2 hne
  | cons a as ih =>
    have ha := hxs a (List.mem_cons_self a as)
    have ha2 : processItem p v s h a =
        ((processItem p v s h a).1, none) := by
      rw [← ha]
    rw [List.cons_append,
      vso_cons_none p v s h a (as ++ bad :: ys) _ ha2,
      ih (fun x hx => hxs x (List.mem_cons_of_mem a hx))]
    simp [Except.map]

/-- **C9** — (i) when the entity has no RDF-type quad, `recursiveValidate`
fails with `InvalidDataError`; (ii) an item that throws `InvalidDataError`
before pushing anything contributes zero failures and the remaining batch
is processed as if the item were absent; (iii) any other error kind
propagates to the caller instead of being masked (given the earlier items
complete without throwing). -/
theorem claim_C9 (validateFn : Store → String → String → Except VErr (List JsObj))
    (parseFn : String → Except VErr Store)
    (shapeIds : List String) (hierarchy : Hierarchy)
    (shapeStore : Store) (id : String)
    (hnotype : getQuadsSP shapeStore id rdfTypeIri = [])
    (xs ys : List String) (bad : String) :
    recursiveValidate validateFn shapeIds hierarchy shapeStore id =
      Except.error .invalidData
    ∧ (processItem parseFn validateFn shapeIds hierarchy bad =
        ([], some .invalidData) →
      validateSchemaOrg parseFn validateFn shapeIds hierarchy (xs ++ bad :: ys) =
        validateSchemaOrg parseFn validateFn shapeIds hierarchy (xs ++ ys))
    ∧ (∀ e, (processItem parseFn validateFn shapeIds hierarchy bad).2 = some e →
        e ≠ .invalidData →
        (∀ x ∈ xs, (processItem parseFn validateFn shapeIds hierarchy x).2 = none) →
        validateSchemaOrg parseFn validateFn shapeIds hierarchy (xs ++ bad :: ys) =
          Except.error e) :=
  ⟨rv_no_type validateFn shapeIds hierarchy shapeStore id hnotype,
   fun hbad => vso_skip parseFn validateFn shapeIds hierarchy bad xs ys hbad,
   fun e hbade hne hxs =>
     vso_throw parseFn validateFn shapeIds hierarchy bad e xs ys hbade hne hxs⟩

def c9parse : String → Except VErr Store := fun item =>
  if item = "good"
  then Except.ok [⟨⟨false, "G"⟩, rdfTypeIri, Term.named (schemaNS "Thing")⟩]
  else Except.ok [⟨⟨false, "B"⟩, "p", Term.lit "x"⟩]

def c9val : Store → String → String → Except VErr (List JsObj) :=
  fun _ _ _ => Except.ok []

def c9h : Hierarchy := .mk "Schema" []

set_option maxRecDepth 40000 in
unseal dfs gsRun in
/-- Witness for C9 on a concrete batch: `"bad"` parses to a store whose
only entity has no type quad, so it is skipped and the two `"good"` items
validate as if it were absent. -/
theorem claim_C9_witness :
    recursiveValidate c9val [] c9h [⟨⟨false, "B"⟩, "p", Term.lit "x"⟩] "B" =
      Except.error .invalidData ∧
    validateSchemaOrg c9parse c9val [] c9h ["good", "bad", "good"] =
      validateSchemaOrg c9parse c9val [] c9h ["good", "good"] := by
  have h := claim_C9 c9val c9parse [] c9h
    [⟨⟨false, "B"⟩, "p", Term.lit "x"⟩] "B" (by rfl) ["good"] ["good"] "bad"
  exact ⟨h.1, h.2.1 (by rfl)⟩

/-! ## C7: hierarchical shadowing -/

theorem except_ok_bind {ε α β : Type _} (a : α) (f : α → Except ε β) :
    ((Except.ok a : Except ε α) >>= f) = f a := rfl

theorem bind_ok {ε α β : Type _} {A : Except ε α} {f : α → Except ε β}
    {b : β} (h : (A >>= f) = Except.ok b) :
    ∃ a, A = Except.ok a ∧ f a = Except.ok b := by
  cases A with
  | error e => exact Except.noConfusion h
  | ok a => exact ⟨a, rfl, h⟩

theorem rvN_forall2 (v : Store → String → String → Except VErr (List JsObj))
    (s : List String) (st : Store) (id : String)
    {children : List Hierarchy} {childOuts : List (List JsObj)}
    (props : List (Option String))
    (hc : List.Forall₂ (fun c cs => recursiveValidate v s c st id = Except.ok cs)
      children childOuts) :
    recursiveValidateNested v s children st id props =
      Except.ok ((childOuts.map (fun cs => cs.filter (fun x =>
        !(props.contains (x.getF "property"))))).flatten) := by
  induction hc with
  | nil => rfl
  | cons h hrest ih =>
    simp only [recursiveValidateNested, h, except_ok_bind, ih,
      List.map_cons, List.flatten_cons]

/-- **C7** — for a hierarchy node with own failures `own` (what the node
yields with no children) and children yielding `childOuts` (in
declaration order), the node's result is `own` followed by each child's
failures in order, with every child failure whose `property` equals some
own failure's `property` discarded and the rest retained. -/
theorem claim_C7 (v : Store → String → String → Except VErr (List JsObj))
    (s : List String) (service : String) (children : List Hierarchy)
    (st : Store) (id : String) (own : List JsObj)
    (hown : recursiveValidate v s (.mk service []) st id = Except.ok own)
    (childOuts : List (List JsObj))
    (hc : List.Forall₂ (fun c cs => recursiveValidate v s c st id = Except.ok cs)
      children childOuts) :
    recursiveValidate v s (.mk service children) st id =
      Except.ok (own ++
        (childOuts.map (fun cs => cs.filter (fun x =>
          !((own.map (fun f => f.getF "property")).contains
            (x.getF "property"))))).flatten) := by
  cases hq : getQuadsSP st id rdfTypeIri with
  | nil =>
    rw [rv_no_type v s (.mk service []) st id hq] at hown
    exact Except.noConfusion hown
  | cons tq rest =>
    simp only [recursiveValidate, hq] at hown ⊢
    split at hown
    case isTrue hmem =>
      obtain ⟨fs0, hv, hrest⟩ := bind_ok hown
      simp only [recursiveValidateNested, except_ok_bind, List.append_nil,
        Except.ok.injEq] at hrest
      rw [if_pos hmem, hv, except_ok_bind, hrest,
        rvN_forall2 v s st id (own.map (fun f => f.getF "property")) hc,
        except_ok_bind]
    case isFalse hmem =>
      rw [except_ok_bind] at hown
      simp only [recursiveValidateNested, except_ok_bind, List.map_nil,
        List.nil_append, Except.ok.injEq] at hown
      subst hown
      rw [if_neg hmem, except_ok_bind]
      simp only [List.map_nil]
      rw [rvN_forall2 v s st id [] hc, except_ok_bind]

def c7val : Store → String → String → Except VErr (List JsObj) :=
  fun _ shape _ =>
    if shape = shexNS "ValidSchemaThing"
    then Except.ok [[("property", some "P")]]
    else Except.ok [[("property", some "P")], [("property", some "Q")]]

def c7ids : List String := [shexNS "ValidSchemaThing", shexNS "ValidGoogleThing"]

def c7store : Store := [⟨⟨false, "E"⟩, rdfTypeIri, Term.named (schemaNS "Thing")⟩]

set_option maxRecDepth 10000 in
unseal urlReplaceGo removeUrlsL in
/-- Witness for C7: the parent (`Schema`) fails on property `P`; the child
(`Google`) fails on `P` and `Q`; the merged output keeps the parent's `P`
failure, drops the child's `P` failure and retains the child's `Q`
failure after the parent's own failures. -/
theorem claim_C7_witness :
    recursiveValidate c7val c7ids (.mk "Schema" [.mk "Google" []]) c7store "E" =
      Except.ok
        [[("property", some "P"), ("service", some "Schema"),
          ("node", some "Thing")],
         [("property", some "Q"), ("service", some "Google"),
          ("node", some "Thing")]] := by
  have h := claim_C7 c7val c7ids "Schema" [.mk "Google" []] c7store "E"
    [[("property", some "P"), ("service", some "Schema"),
      ("node", some "Thing")]]
    (by rfl)
    [[[("property", some "P"), ("service", some "Google"),
       ("node", some "Thing")],
      [("property", some "Q"), ("service", some "Google"),
       ("node", some "Thing")]]]
    (List.Forall₂.cons (by rfl) List.Forall₂.nil)
  rw [h]
  rfl

/-! ## C8: termination and cycle-safety of shape materialization -/

set_option maxRecDepth 40000 in
unseal dfs gsRun in
/-- **C8** — `getShape` and `quadsToShapes` are total functions of this
development: their recursion is justified by a measure that strictly
decreases on every recursive call (the set of store node ids not yet in
`parsed` shrinks), which is the formal content of "never recurses
infinitely" on any finite store, cycles included.  Concretely, for the
two-node mutual reference `A→B→A` the materialization terminates and the
single root shape contains both nodes' triples exactly once each, and a
self-loop `A→A` also terminates with its triple included exactly once. -/
theorem claim_C8 :
    (quadsToShapes [⟨⟨false, "A"⟩, "p", .named "B"⟩, ⟨⟨false, "B"⟩, "q", .named "A"⟩] =
      [("A", some [⟨⟨false, "A"⟩, "p", .named "B"⟩, ⟨⟨false, "B"⟩, "q", .named "A"⟩])])
    ∧ ([(⟨⟨false, "A"⟩, "p", .named "B"⟩ : Triple), ⟨⟨false, "B"⟩, "q", .named "A"⟩].count
        ⟨⟨false, "A"⟩, "p", .named "B"⟩ = 1)
    ∧ ([(⟨⟨false, "A"⟩, "p", .named "B"⟩ : Triple), ⟨⟨false, "B"⟩, "q", .named "A"⟩].count
        ⟨⟨false, "B"⟩, "q", .named "A"⟩ = 1)
    ∧ (getShape [⟨⟨false, "A"⟩, "p", .named "A"⟩] (fun _ => none) (.str "A") [] =
        some [⟨⟨false, "A"⟩, "p", .named "A"⟩])
    ∧ (quadsToShapes [⟨⟨false, "A"⟩, "p", .named "A"⟩] =
        [("A", some [⟨⟨false, "A"⟩, "p", .named "A"⟩])]) :=
  ⟨by rfl, by decide, by decide, by rfl, by rfl⟩

/-! ## C6: the secondary locale-annotation lookup -/

theorem getF_setF_same (o : JsObj) (k : String) (v : Option String) :
    (o.setF k v).getF k = v := by
  induction o with
  | nil => simp [JsObj.setF, JsObj.getF]
  | cons a o ih =>
    by_cases hak : a.1 = k
    · simp [JsObj.setF, JsObj.getF, List.find?_cons, hak]
    · simp only [JsObj.setF, JsObj.getF, List.find?_cons] at ih ⊢
      simp [hak] at ih ⊢
      split_ifs at ih ⊢ <;> simp_all [hak, List.find?_cons]

theorem getF_setF_other (o : JsObj) (k k' : String) (v : Option String)
    (hne : k' ≠ k) : (o.setF k v).getF k' = o.getF k' := by
  unfold JsObj.setF
  split
  · unfold JsObj.getF
    rw [List.find?_map]
    have hpg : ((fun p : String × Option String => decide (p.1 = k')) ∘
        (fun p => if p.1 = k then (k, v) else p)) =
        (fun p : String × Option String => decide (p.1 = k')) := by
      funext p
      by_cases hp : p.1 = k
      · simp only [Function.comp_apply, if_pos hp]
        rw [hp]
      · simp only [Function.comp_apply, if_neg hp]
    rw [hpg]
    cases hf : o.find? (fun p => decide (p.1 = k')) with
    | none => simp
    | some a =>
      have ha' : a.1 = k' := by
        have := List.find?_some hf
        simpa using this
      have hra : (if a.1 = k then (k, v) else a) = a := by
        rw [if_neg]
        rw [ha']
        exact hne
      simp [hra]
  · unfold JsObj.getF
    rw [List.find?_append]
    have h1 : [(k, v)].find? (fun p : String × Option String => decide (p.1 = k')) =
        none := by
      simp [Ne.symm hne]
    rw [h1]
    cases o.find? (fun p : String × Option String => decide (p.1 = k')) <;> rfl

theorem alaFold_filter (entries : List (String × String)) (f : JsObj) :
    entries.foldl
      (fun acc p => if jsIncludesChar p.1 '@' then acc else acc.setF p.1 (some p.2)) f =
    (entries.filter (fun p => !(jsIncludesChar p.1 '@'))).foldl
      (fun acc p => acc.setF p.1 (some p.2)) f := by
  induction entries generalizing f with
  | nil => rfl
  | cons a es ih =>
    by_cases h : jsIncludesChar a.1 '@'
    · simp [List.foldl_cons, List.filter_cons, h, ih]
    · simp [List.foldl_cons, List.filter_cons, h, ih]

theorem alaFold_frame (entries : List (String × String)) (k : String) :
    ∀ (f : JsObj), (∀ p ∈ entries, p.1 ≠ k) →
    (entries.foldl
      (fun acc p => if jsIncludesChar p.1 '@' then acc
        else acc.setF p.1 (some p.2)) f).getF k = f.getF k := by
  induction entries with
  | nil =>
    intro f _
    rfl
  | cons a es ih =>
    intro f hk
    rw [List.foldl_cons]
    by_cases h : jsIncludesChar a.1 '@'
    · rw [if_pos h]
      exact ih f (fun p hp => hk p (List.mem_cons_of_mem a hp))
    · rw [if_neg h,
        ih (f.setF a.1 (some a.2)) (fun p hp => hk p (List.mem_cons_of_mem a hp))]
      exact getF_setF_other f a.1 k (some a.2)
        (Ne.symm (hk a (List.mem_cons_self a es)))

theorem alaFold_overwrite (es1 es2 : List (String × String)) (k v : String)
    (f : JsObj) (hk : jsIncludesChar k '@' = false) (h2 : ∀ p ∈ es2, p.1 ≠ k) :
    ((es1 ++ (k, v) :: es2).foldl
      (fun acc p => if jsIncludesChar p.1 '@' then acc
        else acc.setF p.1 (some p.2)) f).getF k = some v := by
  rw [List.foldl_append, List.foldl_cons, if_neg (by simp [hk]),
    alaFold_frame es2 k _ h2]
  exact getF_setF_same _ k (some v)

def c6locAnns : String → Option (List (String × String)) := fun id =>
  if id = "lbl" then some [("message", "LOCALIZED"), ("@context", "ctx")] else none

def cfg6 : VConfig :=
  ⟨fun _ => "msg",
   fun s => if s = "error" then some "Error" else none,
   c6locAnns,
   some [],
   [("S", .shape (some (.single ⟨"P", some [(rdfsLabelIri, "lbl")]⟩)))]⟩

/-- Counterexample to C6 as stated: the failure enters
`toStructuredDataReport` with `message = "ORIGINAL"` already set; the
shape's `rdfs:label` annotation is `"lbl"`, and the locale annotation
object for `"lbl"` also carries a `message` entry.  The secondary lookup
OVERWRITES the existing `message` field with the localized value instead
of leaving it intact. -/
theorem claim_C6_counterexample :
    toStructuredDataReport cfg6
      [⟨some "MissingProperty", some "P", "ORIGINAL", "n", some "S", "error"⟩] =
    [[("property", some "P"), ("message", some "LOCALIZED"),
      ("shape", some "S"), ("node", some "n"), ("severity", some "error"),
      ("severityLabel", some "Error")]] := by
  rfl

/-- **C6 (amended)** — `addLocalizedAnnotations` copies every entry of
the locale annotation object whose key contains no `@` into the failure
unconditionally, overwriting any existing value (the last entry for a key
wins); keys the object does not mention, and keys containing `@`, keep
their previous values; an unknown label leaves the failure unchanged. -/
theorem claim_C6 (locAnns : String → Option (List (String × String)))
    (f : JsObj) (id : String) :
    (locAnns id = none → addLocalizedAnnotations locAnns f id = f)
    ∧ (∀ entries, locAnns id = some entries →
        addLocalizedAnnotations locAnns f id =
          (entries.filter (fun p => !(jsIncludesChar p.1 '@'))).foldl
            (fun acc p => acc.setF p.1 (some p.2)) f)
    ∧ (∀ entries k, locAnns id = some entries → (∀ p ∈ entries, p.1 ≠ k) →
        (addLocalizedAnnotations locAnns f id).getF k = f.getF k)
    ∧ (∀ es1 es2 k v, locAnns id = some (es1 ++ (k, v) :: es2) →
        jsIncludesChar k '@' = false → (∀ p ∈ es2, p.1 ≠ k) →
        (addLocalizedAnnotations locAnns f id).getF k = some v) := by
  refine ⟨fun h => ?_, fun entries h => ?_, fun entries k h hk => ?_,
    fun es1 es2 k v h hk h2 => ?_⟩
  · simp [addLocalizedAnnotations, h]
  · simp only [addLocalizedAnnotations, h]
    exact alaFold_filter entries f
  · simp only [addLocalizedAnnotations, h]
    exact alaFold_frame entries k f hk
  · simp only [addLocalizedAnnotations, h]
    exact alaFold_overwrite es1 es2 k v f hk h2

/-- Witness for the amended C6 at concrete inputs: an unknown label is a
no-op; a known label overwrites the `message` field; a key the
annotation object does not mention keeps its value. -/
theorem claim_C6_witness :
    addLocalizedAnnotations c6locAnns [("message", some "ORIGINAL")] "nope" =
      [("message", some "ORIGINAL")] ∧
    (addLocalizedAnnotations c6locAnns [("message", some "ORIGINAL")] "lbl").getF
      "message" = some "LOCALIZED" ∧
    (addLocalizedAnnotations c6locAnns [("x", some "y")] "lbl").getF "zzz" =
      JsObj.getF [("x", some "y")] "zzz" := by
  refine ⟨(claim_C6 c6locAnns [("message", some "ORIGINAL")] "nope").1 (by rfl),
    (claim_C6 c6locAnns [("message", some "ORIGINAL")] "lbl").2.2.2
      [] [("@context", "ctx")] "message" "LOCALIZED" (by rfl) (by decide)
      (by decide),
    (claim_C6 c6locAnns [("x", some "y")] "lbl").2.2.1
      [("message", "LOCALIZED"), ("@context", "ctx")] "zzz" (by rfl) (by decide)⟩

/-! ## C2: where the report is deduplicated -/

/-- Recursive restatement of `uniqueBy`'s fold, carrying the seen-set. -/
def uniqueByFrom (keys : List String) : List String → List JsObj → List JsObj
  | _, [] => []
  | seen, it :: rest =>
    let val := uniqueKey keys it
    if val ∈ seen then uniqueByFrom keys seen rest
    else it :: uniqueByFrom keys (seenInsert seen val) rest

theorem uniqueBy_fold (keys : List String) :
    ∀ (items : List JsObj) (seen : List String) (acc : List JsObj),
    (items.foldl
      (fun (st : List String × List JsObj) item =>
        let val := uniqueKey keys item
        if val ∈ st.1 then st
        else (seenInsert st.1 val, st.2 ++ [item]))
      (seen, acc)).2 = acc ++ uniqueByFrom keys seen items := by
  intro items
  induction items with
  | nil =>
    intro seen acc
    simp [uniqueByFrom]
  | cons it rest ih =>
    intro seen acc
    rw [List.foldl_cons]
    by_cases h : uniqueKey keys it ∈ seen
    · simp only [uniqueByFrom, h, if_true, ih]
    · simp only [uniqueByFrom, h, if_false, ih]
      simp
  
theorem uniqueBy_eq (items : List JsObj) (keys : List String) :
    uniqueBy items keys = uniqueByFrom keys [] items := by
  unfold uniqueBy
  rw [uniqueBy_fold keys items [] []]
  simp

theorem ubf_sublist (keys : List String) :
    ∀ (items : List JsObj) (seen : List String),
    (uniqueByFrom keys seen items).Sublist items := by
  intro items
  induction items with
  | nil =>
    intro seen
    simp [uniqueByFrom]
  | cons it rest ih =>
    intro seen
    by_cases h : uniqueKey keys it ∈ seen
    · simp only [uniqueByFrom, if_pos h]
      exact (ih seen).cons it
    · simp only [uniqueByFrom, if_neg h]
      exact (ih (seenInsert seen (uniqueKey keys it))).cons₂ it

theorem ubf_pairwise (keys : List String) :
    ∀ (items : List JsObj) (seen : List String),
    (∀ it ∈ items, uniqueKey keys it ≠ "__proto__") →
    (uniqueByFrom keys seen items).Pairwise
      (fun a b => uniqueKey keys a ≠ uniqueKey keys b) ∧
    (∀ it' ∈ uniqueByFrom keys seen items, uniqueKey keys it' ∉ seen) := by
  intro items
  induction items with
  | nil =>
    intro seen _
    exact ⟨List.Pairwise.nil, by simp [uniqueByFrom]⟩
  | cons it rest ih =>
    intro seen hp
    have hpr : ∀ x ∈ rest, uniqueKey keys x ≠ "__proto__" :=
      fun x hx => hp x (List.mem_cons_of_mem it hx)
    by_cases h : uniqueKey keys it ∈ seen
    · simp only [uniqueByFrom, if_pos h]
      exact ih seen hpr
    · simp only [uniqueByFrom, if_neg h]
      have hins : seenInsert seen (uniqueKey keys it) =
          uniqueKey keys it :: seen := by
        unfold seenInsert
        rw [if_neg (hp it (List.mem_cons_self it rest))]
      rw [hins]
      obtain ⟨ihp, ihs⟩ := ih (uniqueKey keys it :: seen) hpr
      refine ⟨List.Pairwise.cons (fun b hb => ?_) ihp, fun it' hit' => ?_⟩
      · intro hEq
        exact ihs b hb (hEq ▸ List.mem_cons_self _ _)
      · rcases List.mem_cons.mp hit' with hE | hT
        · rw [hE]
          exact h
        · exact fun hseen => ihs it' hT (List.mem_cons_of_mem _ hseen)

theorem ubf_complete (keys : List String) :
    ∀ (items : List JsObj) (seen : List String), ∀ it ∈ items,
    uniqueKey keys it ∈ seen ∨
    ∃ it', it' ∈ uniqueByFrom keys seen items ∧
      uniqueKey keys it' = uniqueKey keys it := by
  intro items
  induction items with
  | nil =>
    intro seen it hit
    exact absurd hit (List.not_mem_nil it)
  | cons it0 rest ih =>
    intro seen it hit
    by_cases h0 : uniqueKey keys it0 ∈ seen
    · rcases List.mem_cons.mp hit with hE | hT
      · exact Or.inl (hE ▸ h0)
      · rcases ih seen it hT with hL | ⟨it', h', hk⟩
        · exact Or.inl hL
        · refine Or.inr ⟨it', ?_, hk⟩
          simp only [uniqueByFrom, if_pos h0]
          exact h'
    · rcases List.mem_cons.mp hit with hE | hT
      · refine Or.inr ⟨it0, ?_, by rw [hE]⟩
        simp only [uniqueByFrom, if_neg h0]
        exact List.mem_cons_self _ _
      · rcases ih (seenInsert seen (uniqueKey keys it0)) it hT with hL | ⟨it', h', hk⟩
        · unfold seenInsert at hL
          by_cases hpr : uniqueKey keys it0 = "__proto__"
          · rw [if_pos hpr] at hL
            exact Or.inl hL
          · rw [if_neg hpr] at hL
            rcases List.mem_cons.mp hL with hE2 | hS
            · refine Or.inr ⟨it0, ?_, hE2.symm⟩
              simp only [uniqueByFrom, if_neg h0]
              exact List.mem_cons_self _ _
            · exact Or.inl hS
        · refine Or.inr ⟨it', ?_, hk⟩
          simp only [uniqueByFrom, if_neg h0]
          exact List.mem_cons_of_mem _ h'

def c2storeA : Store := [⟨⟨false, "A"⟩, rdfTypeIri, Term.named (schemaNS "Thing")⟩]
def c2storeB : Store := [⟨⟨false, "B"⟩, rdfTypeIri, Term.named (schemaNS "Thing")⟩]
def c2store : Store := c2storeA ++ c2storeB

def c2val : Store → String → String → Except VErr (List JsObj) :=
  fun _ _ _ =>
    Except.ok [[("property", some "P"), ("shape", some "SH"),
      ("severity", some "error")]]

def c2parse : String → Except VErr Store := fun _ => Except.ok c2store

def c2ids : List String := [shexNS "ValidSchemaThing"]

/-- The report record both entities of the counterexample produce. -/
def c2rec : JsObj :=
  [("property", some "P"), ("shape", some "SH"), ("severity", some "error"),
   ("service", some "Schema"), ("node", some "Thing")]

set_option maxRecDepth 40000 in
unseal dfs gsRun urlReplaceGo removeUrlsL in
/-- Counterexample to C2 as stated: one document with two independent
typed entities `A` and `B`, each of which fails with the SAME
(property, shape, severity) triple.  The final report keeps BOTH
records — `uniqueBy` runs per entity, so the dedup is not document-wide
(a document-wide dedup would keep only the first, as the last conjunct
shows). -/
theorem claim_C2_counterexample :
    validateSchemaOrg c2parse c2val c2ids (.mk "Schema" []) ["doc"] =
      Except.ok [c2rec, c2rec]
    ∧ (uniqueKey ["property", "shape", "severity"] c2rec =
        uniqueKey ["property", "shape", "severity"] c2rec)
    ∧ uniqueBy [c2rec, c2rec] ["property", "shape", "severity"] = [c2rec] :=
  ⟨by rfl, rfl, by decide⟩

/-- **C2 (amended)** — deduplication by the (property, shape, severity)
triple happens per entity, not document-wide: the entity loop emits each
entity's `uniqueBy`-deduplicated block and concatenates the blocks
unchanged.  `uniqueBy` itself keeps an order-preserving subsequence, has
pairwise-distinct keys when no item's key is the string `"__proto__"`
(such keys are never recorded by the seen object), and represents every
input key. -/
theorem claim_C2 (v : Store → String → String → Except VErr (List JsObj))
    (s : List String) (h : Hierarchy) (id : String) (shape : Store)
    (rest : List (String × Option Store)) (fs : List JsObj)
    (hok : recursiveValidate v s h shape id = Except.ok fs) :
    processEntities v s h ((id, some shape) :: rest) =
      (uniqueBy fs ["property", "shape", "severity"] ++
        (processEntities v s h rest).1, (processEntities v s h rest).2)
    ∧ (∀ (items : List JsObj) (keys : List String),
        (uniqueBy items keys).Sublist items)
    ∧ (∀ (items : List JsObj) (keys : List String),
        (∀ it ∈ items, uniqueKey keys it ≠ "__proto__") →
        (uniqueBy items keys).Pairwise
          (fun a b => uniqueKey keys a ≠ uniqueKey keys b))
    ∧ (∀ (items : List JsObj) (keys : List String), ∀ it ∈ items,
        ∃ it', it' ∈ uniqueBy items keys ∧
          uniqueKey keys it' = uniqueKey keys it) := by
  refine ⟨?_, fun items keys => ?_, fun items keys hp => ?_,
    fun items keys it hit => ?_⟩
  · simp only [processEntities, hok]
  · rw [uniqueBy_eq]
    exact ubf_sublist keys items []
  · rw [uniqueBy_eq]
    exact (ubf_pairwise keys items [] hp).1
  · rw [uniqueBy_eq]
    rcases ubf_complete keys items [] it hit with hL | hE
    · exact absurd hL (List.not_mem_nil _)
    · exact hE

set_option maxRecDepth 10000 in
unseal urlReplaceGo removeUrlsL in
/-- Witness for the amended C2 at concrete inputs: the two-entity loop
emits entity `A`'s deduplicated block followed by entity `B`'s; and the
`uniqueBy` guarantees hold on a concrete duplicate list. -/
theorem claim_C2_witness :
    processEntities c2val c2ids (.mk "Schema" [])
        [("A", some c2storeA), ("B", some c2storeB)] = ([c2rec, c2rec], none)
    ∧ (uniqueBy [[("k", some "x")], [("k", some "x")]] ["k"]).Sublist
        [[("k", some "x")], [("k", some "x")]]
    ∧ (uniqueBy [[("k", some "x")], [("k", some "x")]] ["k"]).Pairwise
        (fun a b => uniqueKey ["k"] a ≠ uniqueKey ["k"] b)
    ∧ (∃ it', it' ∈ uniqueBy [[("k", some "x")], [("k", some "x")]] ["k"] ∧
        uniqueKey ["k"] it' = uniqueKey ["k"] [("k", some "x")]) := by
  have h := claim_C2 c2val c2ids (.mk "Schema" []) "A" c2storeA
    [("B", some c2storeB)] [c2rec] (by rfl)
  refine ⟨?_, h.2.1 _ _, h.2.2.1 _ _ (by decide),
    h.2.2.2 _ _ [("k", some "x")] (List.mem_cons_self _ _)⟩
  rw [h.1]
  rfl

/-! ## C5: which report fields are de-prefixed -/

theorem removeUrlsL_fix (cs : List Char) :
    removeUrlsL (removeUrlsL cs) = removeUrlsL cs := by
  rw [removeUrlsL_eq (removeUrlsL cs), removeUrlsL_noMatch cs]
  simp

theorem removeUrls_idem (s : String) :
    removeUrls (removeUrls s) = removeUrls s :=
  congrArg String.mk (removeUrlsL_fix s.data)

/-- The per-failure tagging `recursiveValidate` applies to the
validator's failures. -/
def tagF (service type' : String) : JsObj → JsObj :=
  fun f => (f.setF "service" (some service)).setF "node" (some type')

theorem rv_ok_decomp (v : Store → String → String → Except VErr (List JsObj))
    (s : List String) (service : String) (children : List Hierarchy)
    (st : Store) (id : String) (out : List JsObj)
    (tq : Triple) (tqs : List Triple)
    (hq : getQuadsSP st id rdfTypeIri = tq :: tqs)
    (hok : recursiveValidate v s (.mk service children) st id = Except.ok out) :
    ∃ (fs0 nested : List JsObj),
      recursiveValidateNested v s children st id
        ((List.map (tagF service (removeUrls (removeUrls tq.object.value))) fs0).map
          (fun f => f.getF "property")) = Except.ok nested ∧
      out = List.map (tagF service (removeUrls (removeUrls tq.object.value))) fs0
        ++ nested := by
  simp only [recursiveValidate, hq] at hok
  split at hok
  · obtain ⟨fs0, hv, hrest⟩ := bind_ok hok
    obtain ⟨nested, hn, hfin⟩ := bind_ok hrest
    injection hfin with hfin
    exact ⟨fs0, nested, hn, hfin.symm⟩
  · obtain ⟨fs0, hv, hrest⟩ := bind_ok hok
    obtain ⟨nested, hn, hfin⟩ := bind_ok hrest
    injection hfin with hfin
    exact ⟨fs0, nested, hn, hfin.symm⟩

theorem rv_node_fix (v : Store → String → String → Except VErr (List JsObj))
    (s : List String) :
    ∀ (N : Nat) (h : Hierarchy), sizeOf h ≤ N →
    ∀ (st : Store) (id : String) (out : List JsObj),
    recursiveValidate v s h st id = Except.ok out →
    ∀ f ∈ out, ∃ n, JsObj.getF f "node" = some n ∧ removeUrls n = n := by
  intro N
  induction N with
  | zero =>
    intro h hle
    cases h with
    | mk service children =>
      exfalso
      rw [Hierarchy.mk.sizeOf_spec] at hle
      omega
  | succ N ih =>
    intro h hle st id out hok f hf
    cases h with
    | mk service children =>
    cases hq : getQuadsSP st id rdfTypeIri with
    | nil =>
      rw [rv_no_type v s (.mk service children) st id hq] at hok
      exact Except.noConfusion hok
    | cons tq tqs =>
      obtain ⟨fs0, nested, hn, hout⟩ :=
        rv_ok_decomp v s service children st id out tq tqs hq hok
      subst hout
      rcases List.mem_append.mp hf with hfo | hfn
      · obtain ⟨g, hg, hge⟩ := List.mem_map.mp hfo
        refine ⟨removeUrls (removeUrls tq.object.value), ?_, removeUrls_idem _⟩
        rw [← hge]
        exact getF_setF_same (g.setF "service" (some service)) "node"
          (some (removeUrls (removeUrls tq.object.value)))
      · have hcs : ∀ c ∈ children, sizeOf c ≤ N := by
          intro c hc
          have h1 : sizeOf c < sizeOf children := List.sizeOf_lt_of_mem hc
          rw [Hierarchy.mk.sizeOf_spec] at hle
          omega
        have aux : ∀ (cs : List Hierarchy), (∀ c ∈ cs, sizeOf c ≤ N) →
            ∀ (props : List (Option String)) (nout : List JsObj),
            recursiveValidateNested v s cs st id props = Except.ok nout →
            ∀ g ∈ nout, ∃ n, JsObj.getF g "node" = some n ∧
              removeUrls n = n := by
          intro cs
          induction cs with
          | nil =>
            intro _ props nout hnn g hg
            simp only [recursiveValidateNested] at hnn
            injection hnn with hnn
            subst hnn
            exact absurd hg (List.not_mem_nil g)
          | cons c cs' ihc =>
            intro hsz props nout hnn g hg
            simp only [recursiveValidateNested] at hnn
            obtain ⟨nf, hnf, hrest2⟩ := bind_ok hnn
            obtain ⟨more, hmore, hfin2⟩ := bind_ok hrest2
            injection hfin2 with hfin2
            rw [← hfin2] at hg
            rcases List.mem_append.mp hg with hg1 | hg2
            · exact ih c (hsz c (List.mem_cons_self c cs')) st id nf hnf g
                (List.mem_of_mem_filter hg1)
            · exact ihc (fun c' hc' => hsz c' (List.mem_cons_of_mem c hc'))
                props more hmore g hg2
        exact aux children hcs _ nested hn f hfn

def cfg5 : VConfig :=
  ⟨fun _ => "Property {property} not found",
   fun sv => if sv = "error" then some "Error" else none,
   fun _ => none,
   none,
   []⟩

def c5val : Store → String → String → Except VErr (List JsObj) :=
  fun _ _ _ => shexValidateReport cfg5
    [RawItem.mk (some "MissingProperty") (some "http://schema.org/name")
      none none none none none none none []]

def c5parse : String → Except VErr Store := fun _ => Except.ok c2storeA

def c5ids : List String := [shexNS "ValidSchemaThing"]

/-- The report record the C5 counterexample run produces. -/
def c5rec : JsObj :=
  [("property", some "http://schema.org/name"),
   ("message", some "Property http://schema.org/name not found"),
   ("shape", some ""), ("node", some "Thing"), ("severity", some "error"),
   ("severityLabel", some "Error"), ("service", some "Schema")]

set_option maxRecDepth 40000 in
unseal dfs gsRun urlReplaceGo removeUrlsL simplifyList fmtGo in
/-- Counterexample to C5 as stated: running the full pipeline (raw shex
report → simplifier → structured report → hierarchical validator →
batch driver) on a `MissingProperty` failure for
`http://schema.org/name` surfaces the failure with its `property` value
still carrying the URL prefix — `removeUrls` would have stripped it to
`name`, so the property value is NOT de-prefixed (only `node` is). -/
theorem claim_C5_counterexample :
    validateSchemaOrg c5parse c5val c5ids (.mk "Schema" []) ["doc"] =
      Except.ok [c5rec]
    ∧ JsObj.getF c5rec "property" = some "http://schema.org/name"
    ∧ removeUrls "http://schema.org/name" = "name"
    ∧ ("http://schema.org/name" : String) ≠ "name" :=
  ⟨by rfl, by rfl, by rfl, by decide⟩

/-- **C5 (amended)** — in every successful `recursiveValidate` output,
every failure's `node` value is present and fully de-prefixed (it is a
fixpoint of `removeUrls`, i.e. contains no further strippable URL
prefix).  The `property` value is NOT normalized by the validation
pipeline (the de-prefixing of `property` happens only later, in the
audit's table rendering). -/
theorem claim_C5 (v : Store → String → String → Except VErr (List JsObj))
    (s : List String) (h : Hierarchy) (st : Store) (id : String)
    (out : List JsObj)
    (hok : recursiveValidate v s h st id = Except.ok out) :
    ∀ f ∈ out, ∃ n, JsObj.getF f "node" = some n ∧ removeUrls n = n :=
  rv_node_fix v s (sizeOf h) h (le_refl _) st id out hok

set_option maxRecDepth 10000 in
unseal urlReplaceGo removeUrlsL in
/-- Witness for the amended C5: the concrete record produced by the C2
run has the de-prefixed node `Thing`. -/
theorem claim_C5_witness :
    ∃ n, JsObj.getF c2rec "node" = some n ∧ removeUrls n = n :=
  claim_C5 c2val c2ids (.mk "Schema" []) c2storeA "A" [c2rec] (by rfl) c2rec
    (List.mem_cons_self _ _)

/-! ## C3: which ids receive a component -/

theorem dfs_visited_pre (adj : String → List String) (N : Finset String)
    (hadj : ∀ v w, w ∈ adj v → w ∈ N) :
    ∀ (vs : List String) (hvs : ∀ v ∈ vs, v ∈ N) (used : Finset String),
      (dfs adj N hadj vs hvs used).1.val =
        used ∪ (dfs adj N hadj vs hvs used).2.pre.toFinset := by
  intro vs hvs used
  induction vs, hvs, used using dfs.induct adj N hadj with
  | case1 x used h =>
    rw [dfs]
    simp [Forest.pre]
  | case2 v rest hvs used hv h ih =>
    rw [dfs]
    simp only [dif_pos hv]
    exact ih
  | case3 v rest hvs used hv rc h ihc ihs ihs2 =>
    rw [dfs]
    simp only [dif_neg hv]
    rw [ihs2, ihc]
    ext x
    simp only [Forest.pre, List.toFinset_cons, List.toFinset_append,
      Finset.mem_union, Finset.mem_insert, List.mem_toFinset]
    tauto

theorem dfs_pre_clean (adj : String → List String) (N : Finset String)
    (hadj : ∀ v w, w ∈ adj v → w ∈ N) :
    ∀ (vs : List String) (hvs : ∀ v ∈ vs, v ∈ N) (used : Finset String),
      (dfs adj N hadj vs hvs used).2.pre.Nodup ∧
      ∀ x ∈ (dfs adj N hadj vs hvs used).2.pre, x ∉ used := by
  intro vs hvs used
  induction vs, hvs, used using dfs.induct adj N hadj with
  | case1 x used h =>
    rw [dfs]
    simp [Forest.pre]
  | case2 v rest hvs used hv h ih =>
    rw [dfs]
    simp only [dif_pos hv]
    exact ih
  | case3 v rest hvs used hv rc h ihc ihs ihs2 =>
    rw [dfs]
    simp only [dif_neg hv]
    obtain ⟨hcN, hcD⟩ := ihc
    obtain ⟨hsN, hsD⟩ := ihs2
    have hsubC : insert v used ⊆
        (dfs adj N hadj (adj v) (fun w hw => hadj v w hw) (insert v used)).1.val :=
      (dfs adj N hadj (adj v) (fun w hw => hadj v w hw) (insert v used)).1.2
    have hCval := dfs_visited_pre adj N hadj (adj v)
      (fun w hw => hadj v w hw) (insert v used)
    constructor
    · simp only [Forest.pre]
      rw [List.nodup_cons, List.nodup_append]
      refine ⟨?_, hcN, hsN, ?_⟩
      · intro hmem
        rcases List.mem_append.mp hmem with h1 | h1
        · exact hcD v h1 (Finset.mem_insert_self v used)
        · exact hsD v h1 (hsubC (Finset.mem_insert_self v used))
      · intro a ha1 ha2
        refine hsD a ha2 ?_
        rw [hCval]
        exact Finset.mem_union_right _ (List.mem_toFinset.mpr ha1)
    · intro x hx
      simp only [Forest.pre, List.mem_cons, List.mem_append] at hx
      rcases hx with rfl | hx | hx
      · exact hv
      · exact fun hxu => hcD x hx (Finset.mem_insert_of_mem hxu)
      · exact fun hxu => hsD x hx (hsubC (Finset.mem_insert_of_mem hxu))

theorem dfs_covers (adj : String → List String) (N : Finset String)
    (hadj : ∀ v w, w ∈ adj v → w ∈ N) :
    ∀ (vs : List String) (hvs : ∀ v ∈ vs, v ∈ N) (used : Finset String),
      ∀ v ∈ vs, v ∈ (dfs adj N hadj vs hvs used).1.val := by
  intro vs hvs used
  induction vs, hvs, used using dfs.induct adj N hadj with
  | case1 x used h =>
    intro v hv
    exact absurd hv (List.not_mem_nil v)
  | case2 v rest hvs used hv h ih =>
    rw [dfs]
    simp only [dif_pos hv]
    intro w hw
    rcases List.mem_cons.mp hw with hE | hw2
    · rw [hE]
      exact (dfs adj N hadj rest
        (fun x hx => hvs x (List.mem_cons_of_mem v hx)) used).1.2 hv
    · exact ih w hw2
  | case3 v rest hvs used hv rc h ihc ihs ihs2 =>
    rw [dfs]
    simp only [dif_neg hv]
    intro w hw
    rcases List.mem_cons.mp hw with hE | hw2
    · rw [hE]
      refine (dfs adj N hadj rest
        (fun x hx => hvs x (List.mem_cons_of_mem v hx))
        (dfs adj N hadj (adj v) (fun x hx => hadj v x hx)
          (insert v used)).1.val).1.2 ?_
      exact (dfs adj N hadj (adj v) (fun x hx => hadj v x hx)
        (insert v used)).1.2 (Finset.mem_insert_self v used)
    · exact ihs2 w hw2

theorem mem_sccOrder {store : Store} {x : String} :
    x ∈ sccOrder store ↔ x ∈ sccNodes store := by
  constructor
  · intro h
    exact List.mem_toFinset.mp (sccOrder_mem_nodes h)
  · intro h
    unfold sccOrder
    rw [(Forest.post_perm_pre _).mem_iff]
    have h1 := dfs_covers (fwdNbrs store (sccNodes store))
      (sccNodes store).toFinset
      (fun _ w hw => List.mem_toFinset.mpr (fwdNbrs_mem_nodes hw))
      (sccNodes store) (fun _ hv => List.mem_toFinset.mpr hv) ∅ x h
    rw [dfs_visited_pre] at h1
    simpa using h1

theorem nodup_sccOrder (store : Store) : (sccOrder store).Nodup :=
  ((Forest.post_perm_pre _).nodup_iff).mpr
    (dfs_pre_clean (fwdNbrs store (sccNodes store)) (sccNodes store).toFinset
      (fun _ w hw => List.mem_toFinset.mpr (fwdNbrs_mem_nodes hw))
      (sccNodes store) (fun _ hv => List.mem_toFinset.mpr hv) ∅).1

theorem sccStep_mono (store : Store) (st : Finset String × Nat × List (String × Nat))
    (vp : {x // x ∈ (sccOrder store).reverse}) : st.1 ⊆ (sccStep store st vp).1 := by
  unfold sccStep
  split
  · exact subset_rfl
  · exact (dfs (bwdNbrs store) (sccNodes store).toFinset _ [vp.val] _ st.1).1.2

theorem sccStep_elem (store : Store) (st : Finset String × Nat × List (String × Nat))
    (vp : {x // x ∈ (sccOrder store).reverse}) : vp.val ∈ (sccStep store st vp).1 := by
  unfold sccStep
  split
  · assumption
  · exact dfs_covers (bwdNbrs store) (sccNodes store).toFinset
      (fun _ w hw => List.mem_toFinset.mpr (bwdNbrs_mem_nodes hw)) [vp.val] _
      st.1 vp.val (List.mem_singleton.mpr rfl)

/-- The pass-2 invariant: the emitted keys are exactly the visited set,
without repetition, inside the node universe. -/
def SccInv (store : Store) (st : Finset String × Nat × List (String × Nat)) : Prop :=
  (st.2.2.map Prod.fst).Nodup ∧ (st.2.2.map Prod.fst).toFinset = st.1 ∧
    st.1 ⊆ (sccNodes store).toFinset

theorem sccStep_inv (store : Store) (st : Finset String × Nat × List (String × Nat))
    (vp : {x // x ∈ (sccOrder store).reverse}) (hst : SccInv store st) :
    SccInv store (sccStep store st vp) := by
  obtain ⟨hnd, hset, hsub⟩ := hst
  unfold sccStep
  split
  · exact ⟨hnd, hset, hsub⟩
  · rename_i hnot
    dsimp only
    unfold SccInv
    dsimp only
    obtain ⟨hpN, hpD⟩ := dfs_pre_clean (bwdNbrs store) (sccNodes store).toFinset
      (fun _ w hw => List.mem_toFinset.mpr (bwdNbrs_mem_nodes hw)) [vp.val]
      (fun w hw => by
        have : w = vp.val := List.mem_singleton.mp hw
        subst this
        exact sccOrder_mem_nodes (List.mem_reverse.mp vp.property)) st.1
    have hval := dfs_visited_pre (bwdNbrs store) (sccNodes store).toFinset
      (fun _ w hw => List.mem_toFinset.mpr (bwdNbrs_mem_nodes hw)) [vp.val]
      (fun w hw => by
        have : w = vp.val := List.mem_singleton.mp hw
        subst this
        exact sccOrder_mem_nodes (List.mem_reverse.mp vp.property)) st.1
    have hid : (Prod.fst ∘ fun x : String => (x, st.2.1)) = id := rfl
    refine ⟨?_, ?_, ?_⟩
    · simp only [List.map_append, List.map_map, hid, List.map_id]
      rw [List.nodup_append]
      refine ⟨hnd, hpN, ?_⟩
      intro a ha1 ha2
      have haF : a ∈ st.1 := by
        rw [← hset]
        exact List.mem_toFinset.mpr ha1
      exact hpD a ha2 haF
    · simp only [List.map_append, List.map_map, hid, List.map_id]
      rw [List.toFinset_append, hset, hval]
    · rw [hval]
      intro a ha
      rcases Finset.mem_union.mp ha with h1 | h1
      · exact hsub h1
      · exact dfs_pre_subset _ _ _ a (List.mem_toFinset.mp h1)

theorem sccFold_inv (store : Store) :
    ∀ (l : List {x // x ∈ (sccOrder store).reverse})
      (st : Finset String × Nat × List (String × Nat)),
      SccInv store st → SccInv store (l.foldl (sccStep store) st) := by
  intro l
  induction l with
  | nil => intro st h; exact h
  | cons a l ih =>
    intro st h
    rw [List.foldl_cons]
    exact ih _ (sccStep_inv store st a h)

theorem sccFold_mono (store : Store) :
    ∀ (l : List {x // x ∈ (sccOrder store).reverse})
      (st : Finset String × Nat × List (String × Nat)),
      st.1 ⊆ (l.foldl (sccStep store) st).1 := by
  intro l
  induction l with
  | nil => intro st; exact subset_rfl
  | cons a l ih =>
    intro st
    rw [List.foldl_cons]
    exact (sccStep_mono store st a).trans (ih _)

theorem sccFold_elem (store : Store) :
    ∀ (l : List {x // x ∈ (sccOrder store).reverse})
      (st : Finset String × Nat × List (String × Nat)),
      ∀ a ∈ l, a.val ∈ (l.foldl (sccStep store) st).1 := by
  intro l
  induction l with
  | nil =>
    intro st a ha
    exact absurd ha (List.not_mem_nil a)
  | cons b l ih =>
    intro st a ha
    rw [List.foldl_cons]
    rcases List.mem_cons.mp ha with rfl | ha2
    · exact sccFold_mono store l _ (sccStep_elem store st a)
    · exact ih _ a ha2

theorem scc_keys (store : Store) :
    ((stronglyConnectedComponents store).map Prod.fst).Nodup ∧
    ∀ x, x ∈ (stronglyConnectedComponents store).map Prod.fst ↔
      x ∈ sccNodes store := by
  unfold stronglyConnectedComponents
  have hinv := sccFold_inv store (sccOrder store).reverse.attach (∅, 0, [])
    ⟨List.nodup_nil, by simp, by simp⟩
  obtain ⟨hnd, hset, hsub⟩ := hinv
  refine ⟨hnd, fun x => ⟨fun hx => ?_, fun hx => ?_⟩⟩
  · refine List.mem_toFinset.mp (hsub ?_)
    rw [← hset]
    exact List.mem_toFinset.mpr hx
  · have hrev : x ∈ (sccOrder store).reverse :=
      List.mem_reverse.mpr (mem_sccOrder.mpr hx)
    have helem := sccFold_elem store (sccOrder store).reverse.attach (∅, 0, [])
      ⟨x, hrev⟩ (List.mem_attach _ _)
    rw [← hset] at helem
    exact List.mem_toFinset.mp helem

theorem componentsGet_isSome (comps : List (String × Nat)) (x : String) :
    (componentsGet comps x).isSome = true ↔ x ∈ comps.map Prod.fst := by
  unfold componentsGet
  induction comps with
  | nil => simp
  | cons a l ih =>
    rw [List.map_cons]
    by_cases ha : a.1 = x
    · simp [List.find?_cons, ha]
    · simp [List.find?_cons, ha, Ne.symm ha, ih]

unseal dfs in
/-- Counterexample to C3 as stated: in the one-triple store `A →p→ B`,
the id `B` is a non-literal object but never a subject; pass 1 seeds only
from subjects (`store.getSubjects()`), so `B` receives no component. -/
theorem claim_C3_counterexample :
    componentsGet
      (stronglyConnectedComponents [⟨⟨false, "A"⟩, "p", .named "B"⟩]) "B" = none
    ∧ (Term.named "B").isLiteral = false
    ∧ stronglyConnectedComponents [⟨⟨false, "A"⟩, "p", .named "B"⟩] = [("A", 0)] :=
  ⟨by decide, by decide, by decide⟩

/-- **C3 (amended)** — `stronglyConnectedComponents` assigns exactly one
ComponentId to every distinct SUBJECT id of the store (each key appears
once and the keys are precisely the subject ids); a non-literal id
occurring only in object position receives none. -/
theorem claim_C3 (store : Store) :
    ((stronglyConnectedComponents store).map Prod.fst).Nodup
    ∧ ∀ x, (componentsGet (stronglyConnectedComponents store) x).isSome = true ↔
        x ∈ sccNodes store := by
  obtain ⟨hnd, hmem⟩ := scc_keys store
  exact ⟨hnd, fun x => (componentsGet_isSome _ x).trans (hmem x)⟩

unseal dfs in
/-- Witness for the amended C3 at a concrete store. -/
theorem claim_C3_witness :
    ((stronglyConnectedComponents [⟨⟨false, "A"⟩, "p", .named "B"⟩]).map
      Prod.fst).Nodup
    ∧ ((componentsGet (stronglyConnectedComponents
        [⟨⟨false, "A"⟩, "p", .named "B"⟩]) "A").isSome = true ↔
      "A" ∈ sccNodes [⟨⟨false, "A"⟩, "p", .named "B"⟩]) := by
  have h := claim_C3 [⟨⟨false, "A"⟩, "p", .named "B"⟩]
  exact ⟨h.1, h.2 "A"⟩

/-! ## C4: full correctness of `stronglyConnectedComponents`

### Order-in-list machinery -/

/-- `x` appears strictly before `y` in `l`. -/
def befo (l : List String) (x y : String) : Prop := [x, y].Sublist l

theorem befo_append_left {A : List String} (B : List String) {x y : String}
    (h : befo A x y) : befo (A ++ B) x y :=
  h.trans (List.sublist_append_left A B)

theorem befo_append_right (A : List String) {B : List String} {x y : String}
    (h : befo B x y) : befo (A ++ B) x y :=
  h.trans (List.sublist_append_right A B)

theorem befo_cross {A B : List String} {x y : String} (hx : x ∈ A) (hy : y ∈ B) :
    befo (A ++ B) x y :=
  (List.singleton_sublist.mpr hx).append (List.singleton_sublist.mpr hy)

theorem pair_sublist_cons {x y a : String} {rest : List String} :
    [x, y].Sublist (a :: rest) ↔
      [x, y].Sublist rest ∨ (x = a ∧ [y].Sublist rest) := by
  constructor
  · intro h
    cases h
    · rename_i h'
      exact Or.inl h'
    · rename_i h'
      exact Or.inr ⟨rfl, h'⟩
  · rintro (h | ⟨rfl, h⟩)
    · exact h.cons a
    · exact h.cons₂ x

theorem befo_index : ∀ (l : List String), l.Nodup → ∀ {x y : String},
    befo l x y → x ∈ l ∧ y ∈ l ∧ l.indexOf x < l.indexOf y := by
  intro l
  induction l with
  | nil =>
    intro _ x y h
    simp [befo] at h
  | cons a rest ih =>
    intro hnd x y h
    have hanr : a ∉ rest := (List.nodup_cons.mp hnd).1
    rcases pair_sublist_cons.mp h with h' | ⟨hxa, h'⟩
    · obtain ⟨hx, hy, hlt⟩ := ih (List.nodup_cons.mp hnd).2 h'
      have hax : a ≠ x := fun hE => hanr (hE ▸ hx)
      have hay : a ≠ y := fun hE => hanr (hE ▸ hy)
      refine ⟨List.mem_cons_of_mem a hx, List.mem_cons_of_mem a hy, ?_⟩
      rw [List.indexOf_cons_ne rest hax, List.indexOf_cons_ne rest hay]
      omega
    · subst hxa
      have hy : y ∈ rest := List.singleton_sublist.mp h'
      have hxy : x ≠ y := fun hE => hanr (hE ▸ hy)
      refine ⟨List.mem_cons_self x rest, List.mem_cons_of_mem x hy, ?_⟩
      rw [List.indexOf_cons_self, List.indexOf_cons_ne rest hxy]
      omega

theorem index_befo : ∀ (l : List String), l.Nodup → ∀ {x y : String},
    x ∈ l → y ∈ l → l.indexOf x < l.indexOf y → befo l x y := by
  intro l
  induction l with
  | nil =>
    intro _ x y hx
    exact absurd hx (List.not_mem_nil x)
  | cons a rest ih =>
    intro hnd x y hx hy hlt
    by_cases hxa : x = a
    · subst hxa
      have hya : y ≠ x := by
        intro hE
        rw [hE] at hlt
        omega
      have hyr : y ∈ rest := by
        rcases List.mem_cons.mp hy with hE | h
        · exact absurd hE hya
        · exact h
      exact (List.singleton_sublist.mpr hyr).cons₂ x
    · have hax : a ≠ x := fun hE => hxa hE.symm
      have hxr : x ∈ rest := by
        rcases List.mem_cons.mp hx with hE | h
        · exact absurd hE hxa
        · exact h
      have hya : y ≠ a := by
        intro hE
        rw [List.indexOf_cons_ne rest hax, hE, List.indexOf_cons_self] at hlt
        omega
      have hay : a ≠ y := fun hE => hya hE.symm
      have hyr : y ∈ rest := by
        rcases List.mem_cons.mp hy with hE | h
        · exact absurd hE hya
        · exact h
      rw [List.indexOf_cons_ne rest hax, List.indexOf_cons_ne rest hay] at hlt
      exact (ih (List.nodup_cons.mp hnd).2 hxr hyr (by omega)).cons a

theorem befo_asymm {l : List String} (hnd : l.Nodup) {x y : String}
    (h1 : befo l x y) (h2 : befo l y x) : False := by
  obtain ⟨_, _, ha⟩ := befo_index l hnd h1
  obtain ⟨_, _, hb⟩ := befo_index l hnd h2
  omega

theorem befo_total {l : List String} (hnd : l.Nodup) {x y : String}
    (hx : x ∈ l) (hy : y ∈ l) (hne : x ≠ y) : befo l x y ∨ befo l y x := by
  rcases Nat.lt_trichotomy (l.indexOf x) (l.indexOf y) with h | h | h
  · exact Or.inl (index_befo l hnd hx hy h)
  · exact absurd (List.indexOf_inj hx hy |>.mp h) hne
  · exact Or.inr (index_befo l hnd hy hx h)

theorem befo_trans {l : List String} (hnd : l.Nodup) {x y z : String}
    (h1 : befo l x y) (h2 : befo l y z) : befo l x z := by
  obtain ⟨hx, _, ha⟩ := befo_index l hnd h1
  obtain ⟨_, hz, hb⟩ := befo_index l hnd h2
  exact index_befo l hnd hx hz (by omega)

theorem befo_mem {l : List String} {x y : String} (h : befo l x y) :
    x ∈ l ∧ y ∈ l := by
  have h1 := h.subset
  exact ⟨h1 (List.mem_cons_self _ _),
    h1 (List.mem_cons_of_mem _ (List.mem_cons_self _ _))⟩

theorem befo_reverse {l : List String} {x y : String} :
    befo l.reverse x y ↔ befo l y x := by
  constructor
  · intro h
    have h2 := h.reverse
    rw [List.reverse_reverse] at h2
    exact h2
  · intro h
    exact h.reverse

/-- In a Nodup list, nothing appears before the head. -/
theorem befo_head {a : String} {rest : List String}
    (hnd : (a :: rest).Nodup) {x : String} (h : befo (a :: rest) x a) : False := by
  obtain ⟨_, _, hlt⟩ := befo_index (a :: rest) hnd h
  rw [List.indexOf_cons_self] at hlt
  omega

/-- The first element of `l` satisfying `S` (given any element does). -/
theorem befo_first (S : String → Prop) :
    ∀ (l : List String), l.Nodup → ∀ w ∈ l, S w →
    ∃ d ∈ l, S d ∧ ∀ x ∈ l, S x → x ≠ d → befo l d x := by
  intro l
  induction l with
  | nil =>
    intro _ w hw
    exact absurd hw (List.not_mem_nil w)
  | cons a rest ih =>
    intro hnd w hw hSw
    by_cases hSa : S a
    · refine ⟨a, List.mem_cons_self a rest, hSa, fun x hx hSx hne => ?_⟩
      have hxr : x ∈ rest := by
        rcases List.mem_cons.mp hx with hE | h
        · exact absurd hE hne
        · exact h
      exact (List.singleton_sublist.mpr hxr).cons₂ a
    · have hwr : w ∈ rest := by
        rcases List.mem_cons.mp hw with hE | h
        · exact absurd (hE ▸ hSw) hSa
        · exact h
      obtain ⟨d, hd, hSd, hmin⟩ := ih (List.nodup_cons.mp hnd).2 w hwr hSw
      refine ⟨d, List.mem_cons_of_mem a hd, hSd, fun x hx hSx hne => ?_⟩
      rcases List.mem_cons.mp hx with hE | hx'
      · exact absurd (hE ▸ hSx) hSa
      · exact (hmin x hx' hSx hne).cons a

/-- The last element of `l` satisfying `S` (given any element does). -/
theorem befo_last (S : String → Prop) :
    ∀ (l : List String), l.Nodup → ∀ w ∈ l, S w →
    ∃ z ∈ l, S z ∧ ∀ y ∈ l, S y → y ≠ z → befo l y z := by
  intro l hnd w hw hSw
  obtain ⟨z, hz, hSz, hmax⟩ := befo_first S l.reverse (List.nodup_reverse.mpr hnd)
    w (List.mem_reverse.mpr hw) hSw
  refine ⟨z, List.mem_reverse.mp hz, hSz, fun y hy hSy hne => ?_⟩
  exact befo_reverse.mp (hmax y (List.mem_reverse.mpr hy) hSy hne)

/-! ### `takeWhile` and the discovered-before set -/

theorem sTW_mem {p : String → Bool} :
    ∀ {l : List String} {x : String}, x ∈ l.takeWhile p → x ∈ l ∧ p x = true := by
  intro l
  induction l with
  | nil =>
    intro x h
    simp at h
  | cons a rest ih =>
    intro x h
    by_cases ha : p a = true
    · rw [List.takeWhile_cons_of_pos ha] at h
      rcases List.mem_cons.mp h with hE | h2
      · exact ⟨hE ▸ List.mem_cons_self a rest, hE ▸ ha⟩
      · obtain ⟨h3, h4⟩ := ih h2
        exact ⟨List.mem_cons_of_mem a h3, h4⟩
    · rw [List.takeWhile_cons_of_neg ha] at h
      exact absurd h (List.not_mem_nil x)

theorem sTW_append_stop {p : String → Bool} {d : String} :
    ∀ {l1 : List String} (l2 : List String), d ∈ l1 → p d = false →
    (l1 ++ l2).takeWhile p = l1.takeWhile p := by
  intro l1
  induction l1 with
  | nil =>
    intro l2 hd
    exact absurd hd (List.not_mem_nil d)
  | cons a rest ih =>
    intro l2 hd hpd
    by_cases ha : p a = true
    · have had : d ≠ a := by
        intro hE
        rw [hE] at hpd
        rw [hpd] at ha
        cases ha
      have hdr : d ∈ rest := by
        rcases List.mem_cons.mp hd with hE | h
        · exact absurd hE had
        · exact h
      rw [List.cons_append, List.takeWhile_cons_of_pos ha,
        List.takeWhile_cons_of_pos ha, ih l2 hdr hpd]
    · have ha' : p a = false := by
        cases hpa : p a
        · rfl
        · exact absurd hpa ha
      rw [List.cons_append, List.takeWhile_cons_of_neg ha,
        List.takeWhile_cons_of_neg ha]

theorem sTW_append_all {p : String → Bool} :
    ∀ {l1 : List String} (l2 : List String), (∀ x ∈ l1, p x = true) →
    (l1 ++ l2).takeWhile p = l1 ++ l2.takeWhile p := by
  intro l1
  induction l1 with
  | nil =>
    intro l2 _
    simp
  | cons a rest ih =>
    intro l2 h
    rw [List.cons_append, List.takeWhile_cons_of_pos (h a (List.mem_cons_self a rest)),
      ih l2 (fun x hx => h x (List.mem_cons_of_mem a hx)), List.cons_append]

/-- The ids discovered strictly before `d` (prefix of the discovery
order). -/
def preBef (l : List String) (d : String) : Finset String :=
  (l.takeWhile (fun x => x ≠ d)).toFinset

theorem mem_preBef :
    ∀ (l : List String), l.Nodup → ∀ (d : String), d ∈ l → ∀ (x : String),
    (x ∈ preBef l d ↔ befo l x d) := by
  intro l
  induction l with
  | nil =>
    intro _ d hd
    exact absurd hd (List.not_mem_nil d)
  | cons a rest ih =>
    intro hnd d hd x
    unfold preBef
    rw [List.mem_toFinset]
    by_cases had : a = d
    · subst had
      rw [List.takeWhile_cons_of_neg (by simp)]
      constructor
      · intro h
        exact absurd h (List.not_mem_nil x)
      · intro h
        exact (befo_head hnd h).elim
    · rw [List.takeWhile_cons_of_pos (by simp [had])]
      have hdr : d ∈ rest := by
        rcases List.mem_cons.mp hd with hE | h
        · exact absurd hE.symm had
        · exact h
      have ihd := ih (List.nodup_cons.mp hnd).2 d hdr x
      unfold preBef at ihd
      rw [List.mem_toFinset] at ihd
      constructor
      · intro h
        rcases List.mem_cons.mp h with hE | h2
        · rw [hE]
          exact (List.singleton_sublist.mpr hdr).cons₂ a
        · exact (ihd.mp h2).cons a
      · intro h
        by_cases hxa : x = a
        · rw [hxa]
          exact List.mem_cons_self a _
        · have hda : d ≠ a := fun hE => had hE.symm
          obtain ⟨hx, hd2, hlt⟩ := befo_index _ hnd h
          have hxr : x ∈ rest := by
            rcases List.mem_cons.mp hx with hE | hh
            · exact absurd hE hxa
            · exact hh
          rw [List.indexOf_cons_ne rest (fun hE => hxa hE.symm),
            List.indexOf_cons_ne rest (fun hE => had hE)] at hlt
          exact List.mem_cons_of_mem a
            (ihd.mpr (index_befo rest (List.nodup_cons.mp hnd).2 hxr hdr (by omega)))

/-! ### Reachability avoiding a visited set -/

/-- One step: an adjacency edge into an unvisited vertex. -/
def stepA (adj : String → List String) (used : Finset String)
    (a b : String) : Prop :=
  b ∈ adj a ∧ b ∉ used

/-- Reachability along edges whose targets are unvisited. -/
def ReachA (adj : String → List String) (used : Finset String) :
    String → String → Prop :=
  Relation.ReflTransGen (stepA adj used)

theorem reachA_mono {adj : String → List String} {used used' : Finset String}
    (h : used' ⊆ used) {x y : String} (hr : ReachA adj used x y) :
    ReachA adj used' x y :=
  Relation.ReflTransGen.mono (fun a b hab => ⟨hab.1, fun hb => hab.2 (h hb)⟩) hr

theorem dfs_closed (adj : String → List String) (N : Finset String)
    (hadj : ∀ v w, w ∈ adj v → w ∈ N) :
    ∀ (vs : List String) (hvs : ∀ v ∈ vs, v ∈ N) (used : Finset String),
    ∀ y, y ∈ (dfs adj N hadj vs hvs used).1.val → y ∉ used →
    ∀ z ∈ adj y, z ∉ used → z ∈ (dfs adj N hadj vs hvs used).1.val := by
  intro vs hvs used
  induction vs, hvs, used using dfs.induct adj N hadj with
  | case1 x used h =>
    rw [dfs]
    intro y hy hyu
    exact absurd hy hyu
  | case2 v rest hvs used hv h ih =>
    rw [dfs]
    simp only [dif_pos hv]
    exact ih
  | case3 v rest hvs used hv rc h ihc ihs ihs2 =>
    rw [dfs]
    simp only [dif_neg hv]
    have hCS : (dfs adj N hadj (adj v) (fun x hx => hadj v x hx)
        (insert v used)).1.val ⊆
        (dfs adj N hadj rest (fun x hx => hvs x (List.mem_cons_of_mem v hx))
          ((dfs adj N hadj (adj v) (fun x hx => hadj v x hx)
            (insert v used)).1.val)).1.val :=
      (dfs adj N hadj rest (fun x hx => hvs x (List.mem_cons_of_mem v hx))
        ((dfs adj N hadj (adj v) (fun x hx => hadj v x hx)
          (insert v used)).1.val)).1.2
    intro y hy hyu z hz hzu
    by_cases hyC : y ∈ (dfs adj N hadj (adj v) (fun x hx => hadj v x hx)
        (insert v used)).1.val
    · by_cases hyiv : y ∈ insert v used
      · have hyv : y = v := by
          rcases Finset.mem_insert.mp hyiv with hE | hE
          · exact hE
          · exact absurd hE hyu
        subst hyv
        exact hCS (dfs_covers adj N hadj (adj y) (fun x hx => hadj y x hx)
          (insert y used) z hz)
      · by_cases hzv : z = v
        · subst hzv
          exact hCS ((dfs adj N hadj (adj z) (fun x hx => hadj z x hx)
            (insert z used)).1.2 (Finset.mem_insert_self z used))
        · have hzni : z ∉ insert v used := by
            intro hE
            rcases Finset.mem_insert.mp hE with hE2 | hE2
            · exact hzv hE2
            · exact hzu hE2
          exact hCS (ihc y hyC hyiv z hz hzni)
    · by_cases hzC : z ∈ (dfs adj N hadj (adj v) (fun x hx => hadj v x hx)
          (insert v used)).1.val
      · exact hCS hzC
      · exact ihs2 y hy hyC z hz hzC

theorem dfs_sound (adj : String → List String) (N : Finset String)
    (hadj : ∀ v w, w ∈ adj v → w ∈ N) :
    ∀ (vs : List String) (hvs : ∀ v ∈ vs, v ∈ N) (used : Finset String),
    ∀ x, x ∈ (dfs adj N hadj vs hvs used).1.val → x ∉ used →
    ∃ v ∈ vs, v ∉ used ∧ ReachA adj used v x := by
  intro vs hvs used
  induction vs, hvs, used using dfs.induct adj N hadj with
  | case1 x used h =>
    rw [dfs]
    intro x hx hxu
    exact absurd hx hxu
  | case2 v rest hvs used hv h ih =>
    rw [dfs]
    simp only [dif_pos hv]
    intro x hx hxu
    obtain ⟨w, hw, hwu, hr⟩ := ih x hx hxu
    exact ⟨w, List.mem_cons_of_mem v hw, hwu, hr⟩
  | case3 v rest hvs used hv rc h ihc ihs ihs2 =>
    rw [dfs]
    simp only [dif_neg hv]
    intro x hx hxu
    by_cases hxC : x ∈ (dfs adj N hadj (adj v) (fun w hw => hadj v w hw)
        (insert v used)).1.val
    · by_cases hxiv : x ∈ insert v used
      · have hxv : x = v := by
          rcases Finset.mem_insert.mp hxiv with hE | hE
          · exact hE
          · exact absurd hE hxu
        subst hxv
        exact ⟨x, List.mem_cons_self x rest, hv, Relation.ReflTransGen.refl⟩
      · obtain ⟨w, hw, hwni, hr⟩ := ihc x hxC hxiv
        refine ⟨v, List.mem_cons_self v rest, hv, ?_⟩
        have hwu : w ∉ used := fun hE => hwni (Finset.mem_insert_of_mem hE)
        exact Relation.ReflTransGen.head ⟨hw, hwu⟩
          (reachA_mono (Finset.subset_insert v used) hr)
    · obtain ⟨w, hw, hwC, hr⟩ := ihs2 x hx hxC
      have hCu : used ⊆ (dfs adj N hadj (adj v) (fun w hw => hadj v w hw)
          (insert v used)).1.val :=
        (Finset.subset_insert v used).trans
          (dfs adj N hadj (adj v) (fun w hw => hadj v w hw) (insert v used)).1.2
      exact ⟨w, List.mem_cons_of_mem v hw, fun hE => hwC (hCu hE),
        reachA_mono hCu hr⟩

theorem dfs_reach_in (adj : String → List String) (N : Finset String)
    (hadj : ∀ v w, w ∈ adj v → w ∈ N)
    (vs : List String) (hvs : ∀ v ∈ vs, v ∈ N) (used : Finset String)
    {w x : String} (hw : w ∈ (dfs adj N hadj vs hvs used).1.val)
    (hwu : w ∉ used) (hr : ReachA adj used w x) :
    x ∈ (dfs adj N hadj vs hvs used).1.val := by
  have main : ∀ y, ReachA adj used w y →
      y ∈ (dfs adj N hadj vs hvs used).1.val ∧ y ∉ used := by
    intro y hy
    induction hy with
    | refl => exact ⟨hw, hwu⟩
    | tail hab hbc ih =>
      obtain ⟨hbV, hbu⟩ := ih
      exact ⟨dfs_closed adj N hadj vs hvs used _ hbV hbu _ hbc.1 hbc.2, hbc.2⟩
  exact (main x hr).1

/-- The white-path theorem at one node: the vertices reachable from `v`
along unvisited vertices are exactly `v` plus the preorder of the child
traversal launched at `v`. -/
theorem subtree_char (adj : String → List String) (N : Finset String)
    (hadj : ∀ v w, w ∈ adj v → w ∈ N) (v : String) (used : Finset String)
    (hv : v ∉ used) (hvsc : ∀ w ∈ adj v, w ∈ N) :
    ∀ x, (x ∉ used ∧ ReachA adj used v x) ↔
      x = v ∨ x ∈ (dfs adj N hadj (adj v) hvsc (insert v used)).2.pre := by
  intro x
  have hval := dfs_visited_pre adj N hadj (adj v) hvsc (insert v used)
  have hclean := dfs_pre_clean adj N hadj (adj v) hvsc (insert v used)
  constructor
  · rintro ⟨hxu, hr⟩
    have main : ∀ y, ReachA adj used v y → y = v ∨
        (y ∈ (dfs adj N hadj (adj v) hvsc (insert v used)).1.val ∧
          y ∉ insert v used) := by
      intro y hy
      induction hy with
      | refl => exact Or.inl rfl
      | tail hab hbc ih =>
        rename_i b c
        by_cases hcv : c = v
        · exact Or.inl hcv
        · have hcni : c ∉ insert v used := by
            intro hE
            rcases Finset.mem_insert.mp hE with hE2 | hE2
            · exact hcv hE2
            · exact hbc.2 hE2
          refine Or.inr ⟨?_, hcni⟩
          rcases ih with hE | ⟨hbC, hbni⟩
          · exact dfs_covers adj N hadj (adj v) hvsc (insert v used) c
              (hE ▸ hbc.1)
          · exact dfs_closed adj N hadj (adj v) hvsc (insert v used) b hbC hbni
              c hbc.1 hcni
    rcases main x hr with hE | ⟨hC, hni⟩
    · exact Or.inl hE
    · refine Or.inr ?_
      rw [hval] at hC
      rcases Finset.mem_union.mp hC with h1 | h1
      · exact absurd h1 hni
      · exact List.mem_toFinset.mp h1
  · rintro (hE | hpre)
    · subst hE
      exact ⟨hv, Relation.ReflTransGen.refl⟩
    · have hni : x ∉ insert v used := hclean.2 x hpre
      have hxu : x ∉ used := fun hE => hni (Finset.mem_insert_of_mem hE)
      have hxC : x ∈ (dfs adj N hadj (adj v) hvsc (insert v used)).1.val := by
        rw [hval]
        exact Finset.mem_union_right _ (List.mem_toFinset.mpr hpre)
      obtain ⟨w, hw, hwni, hr⟩ := dfs_sound adj N hadj (adj v) hvsc
        (insert v used) x hxC hni
      have hwu : w ∉ used := fun hE => hwni (Finset.mem_insert_of_mem hE)
      exact ⟨hxu, Relation.ReflTransGen.head ⟨hw, hwu⟩
        (reachA_mono (Finset.subset_insert v used) hr)⟩

/-! ### Discovery-prefix computations -/

theorem preBef_head (l : List String) (d : String) : preBef (d :: l) d = ∅ := by
  unfold preBef
  rw [List.takeWhile_cons_of_neg (by simp)]
  rfl

theorem preBef_cons_mid {v d : String} {L1 : List String} (L2 : List String)
    (hvd : v ≠ d) (hd : d ∈ L1) :
    preBef (v :: (L1 ++ L2)) d = insert v (preBef L1 d) := by
  unfold preBef
  rw [List.takeWhile_cons_of_pos (by simp [hvd]),
    sTW_append_stop L2 hd (by simp), List.toFinset_cons]

theorem preBef_cons_right {v d : String} {L1 : List String} (L2 : List String)
    (hvd : v ≠ d) (hd : d ∉ L1) :
    preBef (v :: (L1 ++ L2)) d = insert v (L1.toFinset ∪ preBef L2 d) := by
  unfold preBef
  rw [List.takeWhile_cons_of_pos (by simp [hvd]),
    sTW_append_all L2 (fun x hx => by
      simp only [decide_eq_true_eq]
      exact fun hE => hd (hE ▸ hx)),
    List.toFinset_cons, List.toFinset_append]

/-! ### The parenthesis structure of the traversal -/

/-- For each discovered vertex `d`: the vertices reachable from `d`
avoiding everything visited when `d` was discovered form `d`'s subtree —
they are discovered, and finish before `d`; every vertex discovered
after `d` but not in `d`'s subtree finishes after `d`. -/
theorem dfs_struct (adj : String → List String) (N : Finset String)
    (hadj : ∀ v w, w ∈ adj v → w ∈ N) :
    ∀ (vs : List String) (hvs : ∀ v ∈ vs, v ∈ N) (used : Finset String),
    ∀ d ∈ (dfs adj N hadj vs hvs used).2.pre,
    (∀ x, x ∉ used ∪ preBef (dfs adj N hadj vs hvs used).2.pre d →
      ReachA adj (used ∪ preBef (dfs adj N hadj vs hvs used).2.pre d) d x →
      (x ∈ (dfs adj N hadj vs hvs used).2.pre ∧
        (x ≠ d → befo (dfs adj N hadj vs hvs used).2.post x d)))
    ∧ (∀ y ∈ (dfs adj N hadj vs hvs used).2.pre,
        befo (dfs adj N hadj vs hvs used).2.pre d y →
        ¬ ReachA adj (used ∪ preBef (dfs adj N hadj vs hvs used).2.pre d) d y →
        befo (dfs adj N hadj vs hvs used).2.post d y) := by
  intro vs hvs used
  induction vs, hvs, used using dfs.induct adj N hadj with
  | case1 x used h =>
    rw [dfs]
    intro d hd
    exact absurd hd (List.not_mem_nil d)
  | case2 v rest hvs used hv h ih =>
    rw [dfs]
    simp only [dif_pos hv]
    exact ih
  | case3 v rest hvs used hv rc h ihc ihs ihs2 =>
    rw [dfs]
    simp only [dif_neg hv, Forest.pre, Forest.post]
    intro d hd
    have hndpre : (v :: ((dfs adj N hadj (adj v) (fun w hw => hadj v w hw)
        (insert v used)).2.pre ++
        (dfs adj N hadj rest (fun w hw => hvs w (List.mem_cons_of_mem v hw))
          ((dfs adj N hadj (adj v) (fun w hw => hadj v w hw)
            (insert v used)).1.val)).2.pre)).Nodup := by
      have h1 := dfs_pre_clean adj N hadj (v :: rest) hvs used
      rw [dfs] at h1
      simp only [dif_neg hv, Forest.pre] at h1
      exact h1.1
    have hCclean := dfs_pre_clean adj N hadj (adj v)
      (fun w hw => hadj v w hw) (insert v used)
    have hSclean := dfs_pre_clean adj N hadj rest
      (fun w hw => hvs w (List.mem_cons_of_mem v hw))
      ((dfs adj N hadj (adj v) (fun w hw => hadj v w hw) (insert v used)).1.val)
    have hCval := dfs_visited_pre adj N hadj (adj v)
      (fun w hw => hadj v w hw) (insert v used)
    have hCpostperm := Forest.post_perm_pre
      (dfs adj N hadj (adj v) (fun w hw => hadj v w hw) (insert v used)).2
    have hSpostperm := Forest.post_perm_pre
      (dfs adj N hadj rest (fun w hw => hvs w (List.mem_cons_of_mem v hw))
        ((dfs adj N hadj (adj v) (fun w hw => hadj v w hw)
          (insert v used)).1.val)).2
    rcases List.mem_cons.mp hd with hdv | hdm
    · -- d is the root v of this tree
      subst hdv
      have hA : used ∪ preBef (d :: ((dfs adj N hadj (adj d)
          (fun w hw => hadj d w hw) (insert d used)).2.pre ++
          (dfs adj N hadj rest (fun w hw => hvs w (List.mem_cons_of_mem d hw))
            ((dfs adj N hadj (adj d) (fun w hw => hadj d w hw)
              (insert d used)).1.val)).2.pre)) d = used := by
        rw [preBef_head]
        exact Finset.union_empty used
      rw [hA]
      constructor
      · intro x hxu hr
        rcases (subtree_char adj N hadj d used hv
            (fun w hw => hadj d w hw) x).mp ⟨hxu, hr⟩ with hE | hpre
        · subst hE
          exact ⟨List.mem_cons_self x _, fun hne => absurd rfl hne⟩
        · refine ⟨List.mem_cons_of_mem d (List.mem_append_left _ hpre),
            fun _ => ?_⟩
          have hxpost := hCpostperm.mem_iff.mpr hpre
          exact befo_append_left _ (befo_cross hxpost (List.mem_singleton.mpr rfl))
      · intro y hy hbe hnr
        rcases List.mem_cons.mp hy with hyv | hym
        · subst hyv
          exact (befo_asymm hndpre hbe hbe).elim
        · rcases List.mem_append.mp hym with hyC | hyS
          · exact absurd ((subtree_char adj N hadj d used hv
              (fun w hw => hadj d w hw) y).mpr (Or.inr hyC)).2 hnr
          · exact befo_cross
              (List.mem_append_right _ (List.mem_singleton.mpr rfl))
              (hSpostperm.mem_iff.mpr hyS)
    · rcases List.mem_append.mp hdm with hdC | hdS
      · -- d inside the subtree rooted at v
        have hdni := hCclean.2 d hdC
        have hdv : v ≠ d := fun hE => hdni (hE ▸ Finset.mem_insert_self v used)
        have hA : used ∪ preBef (v :: ((dfs adj N hadj (adj v)
            (fun w hw => hadj v w hw) (insert v used)).2.pre ++
            (dfs adj N hadj rest (fun w hw => hvs w (List.mem_cons_of_mem v hw))
              ((dfs adj N hadj (adj v) (fun w hw => hadj v w hw)
                (insert v used)).1.val)).2.pre)) d =
            insert v used ∪ preBef (dfs adj N hadj (adj v)
              (fun w hw => hadj v w hw) (insert v used)).2.pre d := by
          rw [preBef_cons_mid _ hdv hdC]
          ext a
          simp only [Finset.mem_union, Finset.mem_insert]
          tauto
        rw [hA]
        obtain ⟨ihc1, ihc2⟩ := ihc d hdC
        constructor
        · intro x hxA hr
          obtain ⟨hxpre, hxbe⟩ := ihc1 x hxA hr
          refine ⟨List.mem_cons_of_mem v (List.mem_append_left _ hxpre),
            fun hne => ?_⟩
          exact befo_append_left _ (befo_append_left _ (hxbe hne))
        · intro y hy hbe hnr
          rcases List.mem_cons.mp hy with hyv | hym
          · exact ((befo_head hndpre) (hyv ▸ hbe)).elim
          · rcases List.mem_append.mp hym with hyC | hyS
            · have hdy : d ≠ y := by
                intro hE
                exact befo_asymm hndpre hbe (hE ▸ hbe)
              have hbC : befo (dfs adj N hadj (adj v)
                  (fun w hw => hadj v w hw) (insert v used)).2.pre d y := by
                rcases befo_total hCclean.1 hdC hyC hdy with hb | hb
                · exact hb
                · exact ((befo_asymm hndpre hbe
                    ((hb.trans (List.sublist_append_left _ _)).cons v)).elim)
              exact befo_append_left _
                (befo_append_left _ (ihc2 y hyC hbC hnr))
            · exact befo_cross
                (List.mem_append_left _ (hCpostperm.mem_iff.mpr hdC))
                (hSpostperm.mem_iff.mpr hyS)
      · -- d inside a later tree (the sibling part)
        have hdnC := hSclean.2 d hdS
        have hdv : v ≠ d := fun hE => hdnC (hE ▸
          ((dfs adj N hadj (adj v) (fun w hw => hadj v w hw)
            (insert v used)).1.2 (Finset.mem_insert_self v used)))
        have hdnCpre : d ∉ (dfs adj N hadj (adj v)
            (fun w hw => hadj v w hw) (insert v used)).2.pre := by
          intro hE
          refine hdnC ?_
          rw [hCval]
          exact Finset.mem_union_right _ (List.mem_toFinset.mpr hE)
        have hA : used ∪ preBef (v :: ((dfs adj N hadj (adj v)
            (fun w hw => hadj v w hw) (insert v used)).2.pre ++
            (dfs adj N hadj rest (fun w hw => hvs w (List.mem_cons_of_mem v hw))
              ((dfs adj N hadj (adj v) (fun w hw => hadj v w hw)
                (insert v used)).1.val)).2.pre)) d =
            (dfs adj N hadj (adj v) (fun w hw => hadj v w hw)
              (insert v used)).1.val ∪
            preBef (dfs adj N hadj rest
              (fun w hw => hvs w (List.mem_cons_of_mem v hw))
              ((dfs adj N hadj (adj v) (fun w hw => hadj v w hw)
                (insert v used)).1.val)).2.pre d := by
          rw [preBef_cons_right _ hdv hdnCpre, hCval]
          ext a
          simp only [Finset.mem_union, Finset.mem_insert, List.mem_toFinset]
          tauto
        rw [hA]
        obtain ⟨ihs1, ihs2'⟩ := ihs2 d hdS
        constructor
        · intro x hxA hr
          obtain ⟨hxpre, hxbe⟩ := ihs1 x hxA hr
          refine ⟨List.mem_cons_of_mem v (List.mem_append_right _ hxpre),
            fun hne => ?_⟩
          exact befo_append_right _ (hxbe hne)
        · intro y hy hbe hnr
          rcases List.mem_cons.mp hy with hyv | hym
          · exact ((befo_head hndpre) (hyv ▸ hbe)).elim
          · rcases List.mem_append.mp hym with hyC | hyS
            · exact ((befo_asymm hndpre
                ((befo_cross hyC hdS).cons v) hbe).elim)
            · have hdy : d ≠ y := by
                intro hE
                exact befo_asymm hndpre hbe (hE ▸ hbe)
              have hbS : befo (dfs adj N hadj rest
                  (fun w hw => hvs w (List.mem_cons_of_mem v hw))
                  ((dfs adj N hadj (adj v) (fun w hw => hadj v w hw)
                    (insert v used)).1.val)).2.pre d y := by
                rcases befo_total hSclean.1 hdS hyS hdy with hb | hb
                · exact hb
                · exact ((befo_asymm hndpre hbe
                    ((hb.trans (List.sublist_append_right _ _)).cons v)).elim)
              exact befo_append_right _ (ihs2' y hyS hbS hnr)

/-! ### The global forward traversal -/

/-- Forward reachability in the traversed graph (edges `subject →
object` restricted exactly as `forwardDfs` restricts them). -/
def ReachF (store : Store) : String → String → Prop :=
  Relation.ReflTransGen (fun a b => b ∈ fwdNbrs store (sccNodes store) a)

/-- Mutual forward reachability. -/
def Mut (store : Store) (x y : String) : Prop :=
  ReachF store x y ∧ ReachF store y x

theorem mut_refl (store : Store) (x : String) : Mut store x x :=
  ⟨Relation.ReflTransGen.refl, Relation.ReflTransGen.refl⟩

theorem mut_symm {store : Store} {x y : String} (h : Mut store x y) :
    Mut store y x := ⟨h.2, h.1⟩

theorem mut_trans {store : Store} {x y z : String} (h1 : Mut store x y)
    (h2 : Mut store y z) : Mut store x z :=
  ⟨h1.1.trans h2.1, h2.2.trans h1.2⟩

theorem reachF_mem {store : Store} {x y : String} (h : ReachF store x y) :
    y = x ∨ y ∈ sccNodes store := by
  induction h with
  | refl => exact Or.inl rfl
  | tail hab hbc ih => exact Or.inr (fwdNbrs_mem_nodes hbc)

/-- The discovery order of pass 1. -/
def gpre (store : Store) : List String := (sccForest store).pre

theorem gpre_nodup (store : Store) : (gpre store).Nodup :=
  (dfs_pre_clean (fwdNbrs store (sccNodes store)) (sccNodes store).toFinset
    (fun _ w hw => List.mem_toFinset.mpr (fwdNbrs_mem_nodes hw))
    (sccNodes store) (fun _ hv => List.mem_toFinset.mpr hv) ∅).1

theorem mem_gpre {store : Store} {x : String} :
    x ∈ gpre store ↔ x ∈ sccNodes store :=
  ((Forest.post_perm_pre (sccForest store)).mem_iff.symm.trans mem_sccOrder)

theorem gpre_struct (store : Store) (d : String) (hd : d ∈ gpre store) :
    (∀ x, x ∉ preBef (gpre store) d →
      ReachA (fwdNbrs store (sccNodes store)) (preBef (gpre store) d) d x →
      (x ∈ gpre store ∧ (x ≠ d → befo (sccOrder store) x d)))
    ∧ (∀ y ∈ gpre store, befo (gpre store) d y →
        ¬ ReachA (fwdNbrs store (sccNodes store)) (preBef (gpre store) d) d y →
        befo (sccOrder store) d y) := by
  have h := dfs_struct (fwdNbrs store (sccNodes store)) (sccNodes store).toFinset
    (fun _ w hw => List.mem_toFinset.mpr (fwdNbrs_mem_nodes hw))
    (sccNodes store) (fun _ hv => List.mem_toFinset.mpr hv) ∅ d hd
  rw [Finset.empty_union] at h
  exact h

theorem reachA_to_reachF {store : Store} {U : Finset String} {x y : String}
    (h : ReachA (fwdNbrs store (sccNodes store)) U x y) : ReachF store x y :=
  Relation.ReflTransGen.mono (fun a b hab => hab.1) h

/-- A plain path whose vertices all avoid `U` refines to an avoiding
path. -/
theorem reachA_of_mid {adj : String → List String} (U : Finset String)
    {d a : String}
    (h1 : Relation.ReflTransGen (fun x y => y ∈ adj x) d a)
    (hmid : ∀ m, Relation.ReflTransGen (fun x y => y ∈ adj x) d m →
      Relation.ReflTransGen (fun x y => y ∈ adj x) m a → m ∉ U) :
    ReachA adj U d a := by
  have main : ∀ x, Relation.ReflTransGen (fun x y => y ∈ adj x) x a →
      Relation.ReflTransGen (fun x y => y ∈ adj x) d x → ReachA adj U x a := by
    intro x hx
    induction hx using Relation.ReflTransGen.head_induction_on with
    | refl =>
      intro _
      exact Relation.ReflTransGen.refl
    | head hstep hrest ih =>
      rename_i p q
      intro hdp
      have hdq : Relation.ReflTransGen (fun x y => y ∈ adj x) d q :=
        hdp.trans (Relation.ReflTransGen.single hstep)
      have hqU : q ∉ U := hmid q hdq hrest
      exact Relation.ReflTransGen.head ⟨hstep, hqU⟩ (ih hdq)
  exact main d h1 Relation.ReflTransGen.refl

/-- An all-in-one-SCC path refines to one avoiding any set the SCC
avoids. -/
theorem reachA_in_scc {store : Store} {U : Finset String} {x y : String}
    (hm : Mut store x y) (hall : ∀ m, Mut store x m → m ∉ U) :
    ReachA (fwdNbrs store (sccNodes store)) U x y := by
  refine reachA_of_mid U hm.1 (fun m hxm hmy => hall m ⟨hxm, hmy.trans hm.2⟩)

/-- The key finishing-order fact: for an edge `a → b` between distinct
strongly connected components, some member of `a`'s component finishes
after every member of `b`'s component. -/
theorem scc_key (store : Store) {a b : String} (ha : a ∈ sccNodes store)
    (hb : b ∈ fwdNbrs store (sccNodes store) a)
    (hnab : ¬ ReachF store b a) :
    ∃ z, Mut store a z ∧ ∀ y, Mut store b y → befo (sccOrder store) y z := by
  have hbn : b ∈ sccNodes store := fwdNbrs_mem_nodes hb
  have hSg : ∀ x, (Mut store a x ∨ Mut store b x) → x ∈ gpre store := by
    intro x hx
    refine mem_gpre.mpr ?_
    rcases hx with h | h
    · rcases reachF_mem h.1 with hE | hm
      · exact hE ▸ ha
      · exact hm
    · rcases reachF_mem h.1 with hE | hm
      · exact hE ▸ hbn
      · exact hm
  obtain ⟨d, hdg, hdS, hdmin⟩ := befo_first
    (fun x => Mut store a x ∨ Mut store b x) (gpre store) (gpre_nodup store)
    a (hSg a (Or.inl (mut_refl store a))) (Or.inl (mut_refl store a))
  have hdU : d ∉ preBef (gpre store) d := by
    intro hE
    have h2 := (mem_preBef (gpre store) (gpre_nodup store) d hdg d).mp hE
    exact befo_asymm (gpre_nodup store) h2 h2
  have hWAB : ∀ x, (Mut store a x ∨ Mut store b x) → x ≠ d →
      x ∉ preBef (gpre store) d := by
    intro x hSx hne hE
    have hbf := (mem_preBef (gpre store) (gpre_nodup store) d hdg x).mp hE
    exact befo_asymm (gpre_nodup store) hbf (hdmin x (hSg x hSx) hSx hne)
  obtain ⟨gs1, gs2⟩ := gpre_struct store d hdg
  have hnMab : ¬ Mut store a b := fun hM => hnab hM.2
  rcases hdS with hda | hdb
  · -- the first-discovered vertex of the two components is in SCC(a)
    have havoidd : ∀ m, Mut store d m → m ∉ preBef (gpre store) d := by
      intro m hm
      by_cases hmd : m = d
      · exact hmd ▸ hdU
      · exact hWAB m (Or.inl (mut_trans hda hm)) hmd
    refine ⟨d, hda, fun y hy => ?_⟩
    have hyd : y ≠ d := by
      intro hE
      exact hnMab (mut_trans hda (mut_symm (hE ▸ hy)))
    have hr1 : ReachA (fwdNbrs store (sccNodes store)) (preBef (gpre store) d)
        d a := reachA_in_scc (mut_symm hda) havoidd
    have hbd : b ≠ d := by
      intro hE
      exact hnMab (by rw [hE]; exact hda)
    have hbU : b ∉ preBef (gpre store) d :=
      hWAB b (Or.inr (mut_refl store b)) hbd
    have hr2 : ReachA (fwdNbrs store (sccNodes store)) (preBef (gpre store) d)
        d b := hr1.tail ⟨hb, hbU⟩
    have havoidb : ∀ m, Mut store b m → m ∉ preBef (gpre store) d := by
      intro m hm
      by_cases hmd : m = d
      · exact hmd ▸ hdU
      · exact hWAB m (Or.inr hm) hmd
    have hr3 : ReachA (fwdNbrs store (sccNodes store)) (preBef (gpre store) d)
        b y := reachA_in_scc hy havoidb
    exact (gs1 y (havoidb y hy) (hr2.trans hr3)).2 hyd
  · -- the first-discovered vertex is in SCC(b)
    have hnMad : ¬ Mut store a d := by
      intro hM
      exact hnab (hdb.1.trans hM.2)
    have hAafter : ∀ x, Mut store a x → befo (sccOrder store) d x := by
      intro x hax
      have hxd : x ≠ d := by
        intro hE
        exact hnMad (hE ▸ hax)
      have hnr : ¬ ReachA (fwdNbrs store (sccNodes store))
          (preBef (gpre store) d) d x := by
        intro hr
        exact hnab (hdb.1.trans ((reachA_to_reachF hr).trans hax.2))
      exact gs2 x (hSg x (Or.inl hax))
        (hdmin x (hSg x (Or.inl hax)) (Or.inl hax) hxd) hnr
    have havoidd : ∀ m, Mut store d m → m ∉ preBef (gpre store) d := by
      intro m hm
      by_cases hmd : m = d
      · exact hmd ▸ hdU
      · exact hWAB m (Or.inr (mut_trans hdb hm)) hmd
    have hBbef : ∀ y, Mut store b y → y = d ∨ befo (sccOrder store) y d := by
      intro y hy
      by_cases hyd : y = d
      · exact Or.inl hyd
      · have hyU : y ∉ preBef (gpre store) d := hWAB y (Or.inr hy) hyd
        have hr : ReachA (fwdNbrs store (sccNodes store))
            (preBef (gpre store) d) d y :=
          reachA_in_scc (mut_trans (mut_symm hdb) hy) havoidd
        exact Or.inr ((gs1 y hyU hr).2 hyd)
    refine ⟨a, mut_refl store a, fun y hy => ?_⟩
    have hda2 : befo (sccOrder store) d a := hAafter a (mut_refl store a)
    rcases hBbef y hy with hE | hbf
    · exact hE ▸ hda2
    · exact befo_trans (nodup_sccOrder store) hbf hda2

/-- Along any forward path the source's component owns a vertex
finishing no earlier than everything mutually reachable with the
target. -/
theorem scc_dom (store : Store) {w r : String} (hr : ReachF store w r) :
    w ∈ sccNodes store →
    ∃ z, Mut store w z ∧ ∀ y, Mut store r y →
      y = z ∨ befo (sccOrder store) y z := by
  induction hr using Relation.ReflTransGen.head_induction_on with
  | refl =>
    intro hrn
    obtain ⟨z, _, hMz, hmax⟩ := befo_last (Mut store r) (sccOrder store)
      (nodup_sccOrder store) r (mem_sccOrder.mpr hrn) (mut_refl store r)
    refine ⟨z, hMz, fun y hy => ?_⟩
    by_cases hyz : y = z
    · exact Or.inl hyz
    · refine Or.inr (hmax y ?_ hy hyz)
      rcases reachF_mem hy.1 with hE | hm
      · exact mem_sccOrder.mpr (hE ▸ hrn)
      · exact mem_sccOrder.mpr hm
  | head hstep hrest ih =>
    rename_i p q
    intro hpn
    have hqn : q ∈ sccNodes store := fwdNbrs_mem_nodes hstep
    obtain ⟨z', hz'q, hdom'⟩ := ih hqn
    by_cases hqp : ReachF store q p
    · have hpq : Mut store p q := ⟨Relation.ReflTransGen.single hstep, hqp⟩
      exact ⟨z', mut_trans hpq hz'q, hdom'⟩
    · obtain ⟨z'', hz''p, hkey⟩ := scc_key store hpn hstep hqp
      refine ⟨z'', hz''p, fun y hy => ?_⟩
      have hzz : befo (sccOrder store) z' z'' := hkey z' hz'q
      rcases hdom' y hy with hE | hbf
      · exact Or.inr (hE ▸ hzz)
      · exact Or.inr (befo_trans (nodup_sccOrder store) hbf hzz)

/-- Under the no-literal-node side condition (automatic in n3, where a
literal's interned id is quoted and an IRI cannot contain a quote) every
backward step reverses to a forward edge. -/
theorem bwd_edge {store : Store}
    (hwf : ∀ t ∈ store, t.object.isLiteral = true →
      t.object.id ∉ sccNodes store)
    {x y : String} (hx : x ∈ sccNodes store) (hy : y ∈ bwdNbrs store x) :
    x ∈ fwdNbrs store (sccNodes store) y := by
  unfold bwdNbrs at hy
  obtain ⟨q, hq, hqy⟩ := List.mem_map.mp hy
  obtain ⟨hqS, hqOd⟩ := List.mem_filter.mp hq
  have hqO : q.object.id = x := of_decide_eq_true hqOd
  have hnl : q.object.isLiteral = false := by
    by_cases hl : q.object.isLiteral = true
    · exact absurd (hqO.symm ▸ hx) (hwf q hqS hl)
    · simpa using hl
  unfold fwdNbrs
  refine List.mem_filterMap.mpr ⟨q, ?_, ?_⟩
  · unfold getQuadsS
    exact List.mem_filter.mpr ⟨hqS, by simp [hqy]⟩
  · rw [if_pos ⟨hnl, hqO.symm ▸ hx⟩, hqO]

/-- A forward edge reverses to a backward step. -/
theorem fwd_bwd {store : Store} {x y : String}
    (h : x ∈ fwdNbrs store (sccNodes store) y) : y ∈ bwdNbrs store x := by
  unfold fwdNbrs at h
  obtain ⟨q, hq, hqx⟩ := List.mem_filterMap.mp h
  split at hqx
  · have hO : q.object.id = x := Option.some.inj hqx
    have hS : q.subject.id = y := by
      have h2 := (List.mem_filter.mp hq).2
      simpa using h2
    unfold bwdNbrs
    refine List.mem_map.mpr ⟨q, ?_, hS⟩
    unfold getQuadsO
    exact List.mem_filter.mpr ⟨List.mem_of_mem_filter hq, by simp [hO]⟩
  · exact absurd hqx (by simp)

/-- A plain backward path from a node reverses to a forward path. -/
theorem bwd_plain_to_F {store : Store}
    (hwf : ∀ t ∈ store, t.object.isLiteral = true →
      t.object.id ∉ sccNodes store)
    {r : String} (hr : r ∈ sccNodes store) {w : String}
    (h : Relation.ReflTransGen (fun a b => b ∈ bwdNbrs store a) r w) :
    w ∈ sccNodes store ∧ ReachF store w r := by
  induction h with
  | refl => exact ⟨hr, Relation.ReflTransGen.refl⟩
  | tail hab hbc ih =>
    rename_i b c
    obtain ⟨hbn, hbr⟩ := ih
    have hcn : c ∈ sccNodes store := bwdNbrs_mem_nodes hbc
    exact ⟨hcn, Relation.ReflTransGen.head (bwd_edge hwf hbn hbc) hbr⟩

/-- A forward path reverses to a plain backward path. -/
theorem F_to_bwd_plain {store : Store} {x y : String} (h : ReachF store x y) :
    Relation.ReflTransGen (fun a b => b ∈ bwdNbrs store a) y x := by
  induction h with
  | refl => exact Relation.ReflTransGen.refl
  | tail hab hbc ih =>
    exact Relation.ReflTransGen.head (fwd_bwd hbc) ih

/-- A mutual pair whose component avoids `U` yields an avoiding backward
path. -/
theorem mut_to_bwd_reachA {store : Store} {U : Finset String}
    (hwf : ∀ t ∈ store, t.object.isLiteral = true →
      t.object.id ∉ sccNodes store)
    {r w : String} (hr : r ∈ sccNodes store)
    (hm : Mut store w r) (hall : ∀ m, Mut store m r → m ∉ U) :
    ReachA (bwdNbrs store) U r w := by
  refine reachA_of_mid U (F_to_bwd_plain hm.1) (fun m h1 h2 => ?_)
  obtain ⟨hmn, hmr⟩ := bwd_plain_to_F hwf hr h1
  obtain ⟨_, hwm⟩ := bwd_plain_to_F hwf hmn h2
  exact hall m ⟨hmr, hm.2.trans hwm⟩

/-- An avoiding backward path reverses to a forward path. -/
theorem bwd_reachA_to_F {store : Store} {U : Finset String}
    (hwf : ∀ t ∈ store, t.object.isLiteral = true →
      t.object.id ∉ sccNodes store)
    {r w : String} (hr : r ∈ sccNodes store)
    (h : ReachA (bwdNbrs store) U r w) :
    w ∈ sccNodes store ∧ ReachF store w r :=
  bwd_plain_to_F hwf hr
    (Relation.ReflTransGen.mono (fun a b hab => hab.1) h)

/-- The backward traversal seeded at the latest-finishing unvisited
vertex collects exactly its strongly connected component. -/
theorem bwd_dfs_scc (store : Store)
    (hwf : ∀ t ∈ store, t.object.isLiteral = true →
      t.object.id ∉ sccNodes store)
    (used : Finset String) {r : String} (hrn : r ∈ sccNodes store)
    (hru : r ∉ used)
    (hcl : ∀ x ∈ used, ∀ y, Mut store x y → y ∈ used)
    (hmax : ∀ z ∈ sccNodes store, z ∉ used →
      z = r ∨ befo (sccOrder store) z r)
    (hvs : ∀ v ∈ [r], v ∈ (sccNodes store).toFinset) :
    ∀ w, w ∈ (dfs (bwdNbrs store) (sccNodes store).toFinset
      (fun _ w hw => List.mem_toFinset.mpr (bwdNbrs_mem_nodes hw))
      [r] hvs used).2.pre ↔ Mut store w r := by
  intro w
  have hval := dfs_visited_pre (bwdNbrs store) (sccNodes store).toFinset
    (fun _ w hw => List.mem_toFinset.mpr (bwdNbrs_mem_nodes hw)) [r] hvs used
  have hclean := dfs_pre_clean (bwdNbrs store) (sccNodes store).toFinset
    (fun _ w hw => List.mem_toFinset.mpr (bwdNbrs_mem_nodes hw)) [r] hvs used
  constructor
  · intro hw
    have hwu : w ∉ used := hclean.2 w hw
    have hwV : w ∈ (dfs (bwdNbrs store) (sccNodes store).toFinset
        (fun _ w hw => List.mem_toFinset.mpr (bwdNbrs_mem_nodes hw))
        [r] hvs used).1.val := by
      rw [hval]
      exact Finset.mem_union_right _ (List.mem_toFinset.mpr hw)
    obtain ⟨v, hv, _, hra⟩ := dfs_sound (bwdNbrs store)
      (sccNodes store).toFinset
      (fun _ w hw => List.mem_toFinset.mpr (bwdNbrs_mem_nodes hw))
      [r] hvs used w hwV hwu
    rw [List.mem_singleton.mp hv] at hra
    obtain ⟨hwn, hwr⟩ := bwd_reachA_to_F hwf hrn hra
    obtain ⟨z, hzw, hdom⟩ := scc_dom store hwr hwn
    have hzu : z ∉ used := fun hE => hwu (hcl z hE w (mut_symm hzw))
    have hzn : z ∈ sccNodes store := by
      rcases reachF_mem hzw.1 with hE | hm
      · exact hE ▸ hwn
      · exact hm
    rcases hdom r (mut_refl store r) with hE | hbf
    · rw [hE]
      exact hzw
    · rcases hmax z hzn hzu with hE2 | hbf2
      · exact absurd (hE2 ▸ hbf)
          (fun h2 => befo_asymm (nodup_sccOrder store) h2 h2)
      · exact (befo_asymm (nodup_sccOrder store) hbf hbf2).elim
  · intro hm
    have hrV : r ∈ (dfs (bwdNbrs store) (sccNodes store).toFinset
        (fun _ w hw => List.mem_toFinset.mpr (bwdNbrs_mem_nodes hw))
        [r] hvs used).1.val :=
      dfs_covers (bwdNbrs store) (sccNodes store).toFinset
        (fun _ w hw => List.mem_toFinset.mpr (bwdNbrs_mem_nodes hw))
        [r] hvs used r (List.mem_singleton.mpr rfl)
    have hwu : w ∉ used := fun hE => hru (hcl w hE r hm)
    have hra : ReachA (bwdNbrs store) used r w :=
      mut_to_bwd_reachA hwf hrn hm
        (fun m hmr hE => hru (hcl m hE r hmr))
    have hwV := dfs_reach_in (bwdNbrs store) (sccNodes store).toFinset
      (fun _ w hw => List.mem_toFinset.mpr (bwdNbrs_mem_nodes hw))
      [r] hvs used hrV hru hra
    rw [hval] at hwV
    rcases Finset.mem_union.mp hwV with h1 | h1
    · exact absurd h1 hwu
    · exact List.mem_toFinset.mp h1

/-- The full pass-2 invariant: on top of `SccInv`, the visited set is
closed under mutual reachability, every emitted index is below the
counter, and two emitted entries share an index exactly when their keys
are mutually reachable. -/
def SccInv2 (store : Store)
    (st : Finset String × Nat × List (String × Nat)) : Prop :=
  SccInv store st
  ∧ (∀ x ∈ st.1, ∀ y, Mut store x y → y ∈ st.1)
  ∧ (∀ p ∈ st.2.2, p.2 < st.2.1)
  ∧ (∀ p ∈ st.2.2, ∀ q ∈ st.2.2, (p.2 = q.2 ↔ Mut store p.1 q.1))

/-- One pass-2 step preserves the full invariant when the processed
vertex finishes last among the unvisited ones. -/
theorem sccStep_scc (store : Store)
    (hwf : ∀ t ∈ store, t.object.isLiteral = true →
      t.object.id ∉ sccNodes store)
    (st : Finset String × Nat × List (String × Nat))
    (vp : {x // x ∈ (sccOrder store).reverse})
    (hinv : SccInv2 store st)
    (hmax : ∀ z ∈ sccNodes store, z ∉ st.1 →
      z = vp.val ∨ befo (sccOrder store) z vp.val) :
    SccInv2 store (sccStep store st vp) := by
  obtain ⟨hinv1, hcl, hidx, hsem⟩ := hinv
  by_cases hmem : vp.val ∈ st.1
  · unfold sccStep
    rw [if_pos hmem]
    exact ⟨hinv1, hcl, hidx, hsem⟩
  · have hchar := bwd_dfs_scc store hwf st.1
      (List.mem_toFinset.mp
        (sccOrder_mem_nodes (List.mem_reverse.mp vp.property)))
      hmem hcl hmax
      (fun w hw => by
        have : w = vp.val := List.mem_singleton.mp hw
        subst this
        exact sccOrder_mem_nodes (List.mem_reverse.mp vp.property))
    have hclean := dfs_pre_clean (bwdNbrs store) (sccNodes store).toFinset
      (fun _ w hw => List.mem_toFinset.mpr (bwdNbrs_mem_nodes hw)) [vp.val]
      (fun w hw => by
        have : w = vp.val := List.mem_singleton.mp hw
        subst this
        exact sccOrder_mem_nodes (List.mem_reverse.mp vp.property)) st.1
    have hval := dfs_visited_pre (bwdNbrs store) (sccNodes store).toFinset
      (fun _ w hw => List.mem_toFinset.mpr (bwdNbrs_mem_nodes hw)) [vp.val]
      (fun w hw => by
        have : w = vp.val := List.mem_singleton.mp hw
        subst this
        exact sccOrder_mem_nodes (List.mem_reverse.mp vp.property)) st.1
    have hkeyold : ∀ s ∈ st.2.2, s.1 ∈ st.1 := by
      intro s hs
      obtain ⟨_, hset, _⟩ := hinv1
      rw [← hset]
      exact List.mem_toFinset.mpr (List.mem_map_of_mem Prod.fst hs)
    have hbase := sccStep_inv store st vp hinv1
    unfold sccStep at hbase ⊢
    rw [if_neg hmem] at hbase ⊢
    dsimp only at hbase ⊢
    refine ⟨hbase, ?_, ?_, ?_⟩
    · dsimp only
      intro x hx y hmxy
      rw [hval] at hx ⊢
      rcases Finset.mem_union.mp hx with h1 | h1
      · exact Finset.mem_union_left _ (hcl x h1 y hmxy)
      · have hx2 : Mut store x vp.val := (hchar x).mp (List.mem_toFinset.mp h1)
        have hy2 : Mut store y vp.val := mut_trans (mut_symm hmxy) hx2
        exact Finset.mem_union_right _
          (List.mem_toFinset.mpr ((hchar y).mpr hy2))
    · dsimp only
      intro p hp
      rcases List.mem_append.mp hp with h1 | h1
      · exact Nat.lt_succ_of_lt (hidx p h1)
      · obtain ⟨x, _, hE⟩ := List.mem_map.mp h1
        rw [← hE]
        exact Nat.lt_succ_self _
    · dsimp only
      intro p hp q hq
      rcases List.mem_append.mp hp with hp1 | hp1 <;>
        rcases List.mem_append.mp hq with hq1 | hq1
      · exact hsem p hp1 q hq1
      · obtain ⟨x, hx, hE⟩ := List.mem_map.mp hq1
        constructor
        · intro h2
          have hq2 : q.2 = st.2.1 := by rw [← hE]
          exact absurd (h2.trans hq2) (Nat.ne_of_lt (hidx p hp1))
        · intro hM
          have hq1p : q.1 ∈ (dfs (bwdNbrs store) (sccNodes store).toFinset
              (fun _ w hw => List.mem_toFinset.mpr (bwdNbrs_mem_nodes hw))
              [vp.val]
              (fun w hw => by
                have : w = vp.val := List.mem_singleton.mp hw
                subst this
                exact sccOrder_mem_nodes (List.mem_reverse.mp vp.property))
              st.1).2.pre := by
            rw [← hE]
            exact hx
          exact absurd (hcl p.1 (hkeyold p hp1) q.1 hM)
            (hclean.2 q.1 hq1p)
      · obtain ⟨x, hx, hE⟩ := List.mem_map.mp hp1
        constructor
        · intro h2
          have hp2 : p.2 = st.2.1 := by rw [← hE]
          exact absurd (h2.symm.trans hp2) (Nat.ne_of_lt (hidx q hq1))
        · intro hM
          have hp1p : p.1 ∈ (dfs (bwdNbrs store) (sccNodes store).toFinset
              (fun _ w hw => List.mem_toFinset.mpr (bwdNbrs_mem_nodes hw))
              [vp.val]
              (fun w hw => by
                have : w = vp.val := List.mem_singleton.mp hw
                subst this
                exact sccOrder_mem_nodes (List.mem_reverse.mp vp.property))
              st.1).2.pre := by
            rw [← hE]
            exact hx
          exact absurd (hcl q.1 (hkeyold q hq1) p.1 (mut_symm hM))
            (hclean.2 p.1 hp1p)
      · obtain ⟨x, hx, hEx⟩ := List.mem_map.mp hp1
        obtain ⟨y, hy, hEy⟩ := List.mem_map.mp hq1
        constructor
        · intro _
          have hxm : Mut store p.1 vp.val := (hchar p.1).mp (by
            rw [← hEx]
            exact hx)
          have hym : Mut store q.1 vp.val := (hchar q.1).mp (by
            rw [← hEy]
            exact hy)
          exact mut_trans hxm (mut_symm hym)
        · intro _
          rw [← hEx, ← hEy]

/-- Folding pass 2 over a tail of the reversed finishing order keeps
the full invariant, provided every still-unvisited node is pending. -/
theorem sccFold_scc (store : Store)
    (hwf : ∀ t ∈ store, t.object.isLiteral = true →
      t.object.id ∉ sccNodes store) :
    ∀ (l : List {x // x ∈ (sccOrder store).reverse})
      (st : Finset String × Nat × List (String × Nat)),
      SccInv2 store st →
      (l.map Subtype.val).Sublist (sccOrder store).reverse →
      (∀ z ∈ sccNodes store, z ∉ st.1 → z ∈ l.map Subtype.val) →
      SccInv2 store (l.foldl (sccStep store) st) := by
  intro l
  induction l with
  | nil =>
    intro st h _ _
    exact h
  | cons vp rest ih =>
    intro st hinv hsub hpend
    rw [List.map_cons] at hsub hpend
    rw [List.foldl_cons]
    have hmax : ∀ z ∈ sccNodes store, z ∉ st.1 →
        z = vp.val ∨ befo (sccOrder store) z vp.val := by
      intro z hz hzu
      rcases List.mem_cons.mp (hpend z hz hzu) with hE | hzr
      · exact Or.inl hE
      · refine Or.inr (befo_reverse.mp ?_)
        exact ((List.singleton_sublist.mpr hzr).cons₂ vp.val).trans hsub
    have hinv2 := sccStep_scc store hwf st vp hinv hmax
    refine ih _ hinv2 ?_ ?_
    · exact List.sublist_of_cons_sublist hsub
    · intro z hz hzu
      have hz1 : z ∉ st.1 := fun hE => hzu (sccStep_mono store st vp hE)
      rcases List.mem_cons.mp (hpend z hz hz1) with hE | h
      · rw [hE] at hzu
        exact absurd (sccStep_elem store st vp) hzu
      · exact h

/-- The full invariant holds at the final state of pass 2. -/
theorem scc_final (store : Store)
    (hwf : ∀ t ∈ store, t.object.isLiteral = true →
      t.object.id ∉ sccNodes store) :
    SccInv2 store
      ((sccOrder store).reverse.attach.foldl (sccStep store) (∅, 0, [])) := by
  refine sccFold_scc store hwf _ _
    ⟨⟨List.nodup_nil, by simp, by simp⟩, ?_, ?_, ?_⟩ ?_ ?_
  · intro x hx
    exact absurd hx (Finset.not_mem_empty x)
  · intro p hp
    exact absurd hp (List.not_mem_nil p)
  · intro p hp
    exact absurd hp (List.not_mem_nil p)
  · rw [List.attach_map_subtype_val]
  · intro z hz _
    rw [List.attach_map_subtype_val]
    exact List.mem_reverse.mpr (mem_sccOrder.mpr hz)

/-- Two entries of the components map share an index exactly when their
keys are mutually forward-reachable. -/
theorem scc_pairs (store : Store)
    (hwf : ∀ t ∈ store, t.object.isLiteral = true →
      t.object.id ∉ sccNodes store) :
    ∀ p ∈ stronglyConnectedComponents store,
      ∀ q ∈ stronglyConnectedComponents store,
        (p.2 = q.2 ↔ Mut store p.1 q.1) := by
  intro p hp q hq
  exact (scc_final store hwf).2.2.2 p hp q hq

/-- A store edge in the claim's sense: subject to object, literal
objects excluded as edge targets. -/
def EdgeC (store : Store) (u v : String) : Prop :=
  ∃ t ∈ store, t.subject.id = u ∧ t.object.id = v ∧
    t.object.isLiteral = false

/-- Reachability along store edges. -/
def ReachC (store : Store) : String → String → Prop :=
  Relation.ReflTransGen (EdgeC store)

theorem fwd_edgeC {store : Store} {a b : String}
    (h : b ∈ fwdNbrs store (sccNodes store) a) : EdgeC store a b := by
  unfold fwdNbrs at h
  obtain ⟨q, hq, hqb⟩ := List.mem_filterMap.mp h
  obtain ⟨hqm, hqa⟩ := List.mem_filter.mp hq
  split at hqb
  · rename_i hcond
    exact ⟨q, hqm, of_decide_eq_true hqa, Option.some.inj hqb, hcond.1⟩
  · exact absurd hqb (by simp)

theorem reachF_to_reachC {store : Store} {a b : String}
    (h : ReachF store a b) : ReachC store a b :=
  Relation.ReflTransGen.mono (fun x y hxy => fwd_edgeC hxy) h

/-- The source of any store edge is a subject, hence a node. -/
theorem edgeC_subject_mem {store : Store} {a b : String}
    (h : EdgeC store a b) : a ∈ sccNodes store := by
  obtain ⟨t, ht, hts, _, _⟩ := h
  rw [← hts]
  exact mem_firstDedup.mpr (List.mem_map.mpr ⟨t, ht, rfl⟩)

/-- A store-edge path between nodes refines to a forward path (all
interior vertices have outgoing edges, so they are subjects). -/
theorem reachC_to_reachF {store : Store} {b : String}
    (hb : b ∈ sccNodes store) :
    ∀ {a}, ReachC store a b → a ∈ sccNodes store → ReachF store a b := by
  intro a h
  induction h using Relation.ReflTransGen.head_induction_on with
  | refl =>
    intro _
    exact Relation.ReflTransGen.refl
  | head hstep hrest ih =>
    rename_i p q
    intro _
    have hq : q ∈ sccNodes store := by
      rcases Relation.ReflTransGen.cases_head hrest with hE | ⟨c, hqc, _⟩
      · exact hE ▸ hb
      · exact edgeC_subject_mem hqc
    have hedge : q ∈ fwdNbrs store (sccNodes store) p := by
      obtain ⟨t, ht, hts, hto, hnl⟩ := hstep
      refine List.mem_filterMap.mpr ⟨t, ?_, ?_⟩
      · unfold getQuadsS
        exact List.mem_filter.mpr ⟨ht, by simp [hts]⟩
      · rw [if_pos ⟨hnl, hto.symm ▸ hq⟩, hto]
    exact Relation.ReflTransGen.head hedge (ih hq)

/-- On nodes, mutual forward reachability coincides with mutual
store-edge reachability. -/
theorem mut_iff_reachC {store : Store} {u v : String}
    (hu : u ∈ sccNodes store) (hv : v ∈ sccNodes store) :
    Mut store u v ↔ (ReachC store u v ∧ ReachC store v u) := by
  constructor
  · intro h
    exact ⟨reachF_to_reachC h.1, reachF_to_reachC h.2⟩
  · rintro ⟨h1, h2⟩
    exact ⟨reachC_to_reachF hv h1 hu, reachC_to_reachF hu h2 hv⟩

/-- A successful `Map.get` exhibits its entry. -/
theorem componentsGet_mem {comps : List (String × Nat)} {x : String}
    {c : Nat} (h : componentsGet comps x = some c) : (x, c) ∈ comps := by
  unfold componentsGet at h
  cases hf : comps.find? (fun p => p.1 = x) with
  | none =>
    rw [hf] at h
    exact Option.noConfusion h
  | some p =>
    rw [hf] at h
    have hm := List.mem_of_find?_eq_some hf
    have hp1 : p.1 = x := by
      have h2 := List.find?_some hf
      simpa using h2
    obtain ⟨p1, p2⟩ := p
    simp only at hp1
    have hp2 : p2 = c := Option.some.inj h
    rw [← hp1, ← hp2]
    exact hm

/-- C4: for every triple store whose literal object ids do not collide
with node ids (automatic in n3: a literal's interned id is quoted while
subject ids are IRIs or `_:`-prefixed blank labels), two labeled ids
share a ComponentId iff they are mutually reachable along store edges
(subject to object, literal objects excluded), so the induced relation
is an equivalence, nodes on a common cycle share a component, and in a
DAG (store-edge reachability antisymmetric) components are
singletons. -/
theorem claim_C4 (store : Store)
    (hwf : ∀ t ∈ store, t.object.isLiteral = true →
      t.object.id ∉ sccNodes store)
    (u v : String) (cu cv : Nat)
    (hu : componentsGet (stronglyConnectedComponents store) u = some cu)
    (hv : componentsGet (stronglyConnectedComponents store) v = some cv) :
    (cu = cv ↔ (ReachC store u v ∧ ReachC store v u))
    ∧ ((∀ x y, ReachC store x y → ReachC store y x → x = y) →
        (cu = cv ↔ u = v)) := by
  have hmu : (u, cu) ∈ stronglyConnectedComponents store :=
    componentsGet_mem hu
  have hmv : (v, cv) ∈ stronglyConnectedComponents store :=
    componentsGet_mem hv
  have hun : u ∈ sccNodes store :=
    ((scc_keys store).2 u).mp (List.mem_map_of_mem Prod.fst hmu)
  have hvn : v ∈ sccNodes store :=
    ((scc_keys store).2 v).mp (List.mem_map_of_mem Prod.fst hmv)
  have hpair : cu = cv ↔ Mut store u v :=
    scc_pairs store hwf (u, cu) hmu (v, cv) hmv
  have hiff : cu = cv ↔ (ReachC store u v ∧ ReachC store v u) :=
    hpair.trans (mut_iff_reachC hun hvn)
  refine ⟨hiff, fun hdag => ⟨fun hE => ?_, fun hE => ?_⟩⟩
  · obtain ⟨h1, h2⟩ := hiff.mp hE
    exact hdag u v h1 h2
  · subst hE
    rw [hu] at hv
    exact Option.some.inj hv

unseal dfs in
/-- C4 witness: in the two-node cycle `A →p→ B →q→ A` both nodes receive
component 0, and the theorem instantiates to their mutual store-edge
reachability. -/
theorem claim_C4_witness :
    ReachC [⟨⟨false, "A"⟩, "p", .named "B"⟩, ⟨⟨false, "B"⟩, "q", .named "A"⟩]
      "A" "B" ∧
    ReachC [⟨⟨false, "A"⟩, "p", .named "B"⟩, ⟨⟨false, "B"⟩, "q", .named "A"⟩]
      "B" "A" :=
  ((claim_C4
    [⟨⟨false, "A"⟩, "p", .named "B"⟩, ⟨⟨false, "B"⟩, "q", .named "A"⟩]
    (by decide) "A" "B" 0 0 (by decide) (by decide)).1).mp rfl

end SDV
